import Mathlib

set_option maxHeartbeats 1000000

/-!
Verification of the carbonserver-flamegraphs tree pipeline (main.go):
tree construction from dotted metric names, trimming, flattening to
row records, reconstruction from rows, the host-list fetch retry loop,
and the query handler's parameter validation.
-/

/-- Shallow embedding of the flameGraphNode struct of main.go (the parent
back-pointer is omitted: it is a weak back-reference, never an ownership
edge, and carries no information not already in the tree). Field order
follows the Go struct: id, cluster, Name, Total, Value, Children,
childrenIds. -/
inductive FGNode : Type where
  | mk (id : Nat) (cluster : String) (name : String) (total : Nat) (value : Nat)
      (children : List FGNode) (childrenIds : List Nat) : FGNode

def FGNode.id : FGNode → Nat
  | .mk i _ _ _ _ _ _ => i

def FGNode.cluster : FGNode → String
  | .mk _ c _ _ _ _ _ => c

def FGNode.name : FGNode → String
  | .mk _ _ nm _ _ _ _ => nm

def FGNode.total : FGNode → Nat
  | .mk _ _ _ t _ _ _ => t

def FGNode.value : FGNode → Nat
  | .mk _ _ _ _ v _ _ => v

def FGNode.children : FGNode → List FGNode
  | .mk _ _ _ _ _ ch _ => ch

def FGNode.childrenIds : FGNode → List Nat
  | .mk _ _ _ _ _ _ ids => ids

mutual

/-- Shallow embedding of trimNodes of main.go: keep exactly the children
whose value strictly exceeds the limit, recursing into the kept children;
the node itself (in particular the root of the whole tree) is never
examined, and only the children field is rewritten. -/
def trimNodes : FGNode → Nat → FGNode
  | .mk i c nm t v ch ids, limit => .mk i c nm t v (trimChildren ch limit) ids

def trimChildren : List FGNode → Nat → List FGNode
  | [], _ => []
  | n :: ns, limit =>
    if n.value > limit then trimNodes n limit :: trimChildren ns limit
    else trimChildren ns limit

end

mutual

/-- All nodes of a tree, root first (pre-order). -/
def FGNode.nodes : FGNode → List FGNode
  | .mk i c nm t v ch ids => .mk i c nm t v ch ids :: nodesList ch

def nodesList : List FGNode → List FGNode
  | [] => []
  | n :: ns => n.nodes ++ nodesList ns

end

/-- Ids of all nodes of a tree. -/
def idsOf (n : FGNode) : List Nat := n.nodes.map FGNode.id

/-- Shallow embedding of the clickhouseField struct of main.go, in the Go
field order: Timestamp, GraphType, Cluster, Name, Total, Id, Value,
ChildrenIds. -/
structure ChField : Type where
  timestamp : Int
  graphType : String
  cluster : String
  name : String
  total : Nat
  id : Nat
  value : Nat
  childrenIds : List Nat
deriving DecidableEq

/-- Row literal built by convertToClickhouse for one node; the GraphType
field is not set there (Go zero value, the empty string). -/
def record (n : FGNode) (timestamp : Int) : ChField :=
  ⟨timestamp, "", n.cluster, n.name, n.total, n.id, n.value, n.childrenIds⟩

mutual

/-- Shallow embedding of convertToClickhouse of main.go: the node's own
row, then for each child its row followed by the rows of the recursive
call on that child (whose head is that child's row again). -/
def convertToClickhouse : FGNode → Int → List ChField
  | .mk i c nm t v ch ids, ts =>
    record (.mk i c nm t v ch ids) ts :: convertChildren ch ts

def convertChildren : List FGNode → Int → List ChField
  | [], _ => []
  | n :: ns, ts => record n ts :: (convertToClickhouse n ts ++ convertChildren ns ts)

end

/-- Keying a row list by id, as getHandler does with data[res.Id] = res
while scanning rows in order (a later row with the same id overwrites an
earlier one, hence the lookup in the reversed list). -/
def keyed (rows : List ChField) (i : Nat) : Option ChField :=
  rows.reverse.find? (fun f => f.id == i)

mutual

/-- Height of a tree (number of nodes on a longest root-to-leaf path);
used only to supply enough fuel to the reconstruction recursion. -/
def FGNode.height : FGNode → Nat
  | .mk _ _ _ _ _ ch _ => 1 + heightList ch

def heightList : List FGNode → Nat
  | [] => 0
  | n :: ns => max n.height (heightList ns)

end

/-- Shallow embedding of the loop body of reconstructTree of main.go: walk
a children-id list, include each id whose row exists and has value
strictly above minValue (a missing id yields the Go zero row, whose value
0 is never above a Nat minValue, so it is skipped), and recurse into the
included child's own children-id list. The fuel argument only bounds the
recursion depth of the embedding; any fuel at least the tree height is
enough. -/
def reconstructChildren (data : Nat → Option ChField) (minValue : Nat) :
    Nat → List Nat → List FGNode
  | 0, _ => []
  | _ + 1, [] => []
  | fuel + 1, i :: rest =>
    match data i with
    | some f =>
      if f.value > minValue then
        FGNode.mk f.id f.cluster f.name f.total f.value
            (reconstructChildren data minValue fuel f.childrenIds) f.childrenIds
          :: reconstructChildren data minValue (fuel + 1) rest
      else reconstructChildren data minValue (fuel + 1) rest
    | none => reconstructChildren data minValue (fuel + 1) rest
termination_by fuel ids => (fuel, ids.length)

/-- Shallow embedding of reconstructTree of main.go: append to the given
root's children the nodes rebuilt from its childrenIds. -/
def reconstructTree (data : Nat → Option ChField) (root : FGNode)
    (minValue fuel : Nat) : FGNode :=
  FGNode.mk root.id root.cluster root.name root.total root.value
    (root.children ++ reconstructChildren data minValue fuel root.childrenIds)
    root.childrenIds

/-- Root id constant of main.go. -/
def rootElementId : Nat := 1

/-- Root node as getHandler builds it from data[rootElementId] (a missing
root row yields the Go zero value row: zero ids, empty strings, nil
lists). -/
def rebuiltRoot (data : Nat → Option ChField) : FGNode :=
  match data rootElementId with
  | some f => FGNode.mk f.id f.cluster f.name f.total f.value [] f.childrenIds
  | none => FGNode.mk 0 "" "" 0 0 [] []

/-- Splitting a string at every dot, exactly as Go strings.Split(s, ".")
does for a one-character separator: empty parts are kept, and the empty
string splits to one empty part. -/
def splitAux : List Char → List Char → List String
  | [], acc => [String.mk acc.reverse]
  | c :: cs, acc =>
    if c = '.' then String.mk acc.reverse :: splitAux cs []
    else splitAux cs (c :: acc)

def splitOnDot (s : String) : List String := splitAux s.data []

/-- Path components a metric contributes in constructTree of main.go: all
dot-separated parts except the last one (parts[:len(parts)-1]), with
empty parts skipped by the continue branch. -/
def segsOf (metric : String) : List String :=
  ((splitOnDot metric).dropLast).filter (fun p => p ≠ "")

/-- Value increment performed by constructTree when a prefix was already
seen (n.Value++). -/
def bumpValue : FGNode → FGNode
  | .mk i c nm t v ch ids => .mk i c nm t (v + 1) ch ids

/-- Whether some child carries the given segment name, i.e. whether the
dotted prefix extending the current node by this segment is in the seen
map of constructTree. -/
def containsName (ch : List FGNode) (s : String) : Bool :=
  ch.any (fun c => c.name == s)

mutual

/-- Shallow embedding of the inner loop of constructTree of main.go for
one metric, as a recursion into the tree: at the node for the current
prefix, a segment either finds a previously created child of that name
(whose value is incremented before descending), or allocates a fresh
child (id cnt, value 1, total as captured at the start, cluster inherited
from the parent) appended to both children and childrenIds. Returns the
rewritten node together with the next fresh id. -/
def insertSegs (total : Nat) (cnt : Nat) (node : FGNode) :
    List String → FGNode × Nat
  | [] => (node, cnt)
  | s :: rest =>
    match node with
    | .mk i cl nm t v ch ids =>
      if containsName ch s then
        match insertInto total cnt ch s rest with
        | (ch2, cnt2) => (.mk i cl nm t v ch2 ids, cnt2)
      else
        match insertSegs total (cnt + 1) (.mk cnt cl s total 1 [] []) rest with
        | (fresh, cnt2) => (.mk i cl nm t v (ch ++ [fresh]) (ids ++ [cnt]), cnt2)
termination_by segs => (segs.length, 0)

/-- Locate the first child named s, bump its value and push the remaining
segments into it; all other children are kept unchanged in place. -/
def insertInto (total : Nat) (cnt : Nat) :
    List FGNode → String → List String → List FGNode × Nat
  | [], _, _ => ([], cnt)
  | c :: cs, s, rest =>
    if c.name == s then
      match insertSegs total cnt (bumpValue c) rest with
      | (c2, cnt2) => (c2 :: cs, cnt2)
    else
      match insertInto total cnt cs s rest with
      | (cs2, cnt2) => (c :: cs2, cnt2)
termination_by cs _s rest => (rest.length, cs.length)

end

/-- Shallow embedding of the outer loop of constructTree of main.go:
process the metrics in order, threading the tree and the id counter. -/
def constructTreeAux (total : Nat) : FGNode → Nat → List String → FGNode × Nat
  | node, cnt, [] => (node, cnt)
  | node, cnt, m :: ms =>
    match insertSegs total cnt node (segsOf m) with
    | (node2, cnt2) => constructTreeAux total node2 cnt2 ms

/-- Shallow embedding of constructTree of main.go: total is the metric
count, the id counter starts at rootElementId + 1. -/
def constructTree (root : FGNode) (metrics : List String) : FGNode :=
  (constructTreeAux metrics.length root (rootElementId + 1) metrics).1

/-- Root node as parseTree of main.go builds it: reserved root id, the
cluster name, name "all", value and total both the metric count, no
children. -/
def parseTreeRoot (clusterName : String) (metrics : List String) : FGNode :=
  FGNode.mk rootElementId clusterName "all" metrics.length metrics.length [] []

/-- Tree built by parseTree of main.go for one cluster from its
deduplicated metric list. -/
def buildTree (clusterName : String) (metrics : List String) : FGNode :=
  constructTree (parseTreeRoot clusterName metrics) metrics

/-- Outcome of one HTTP attempt of getList of main.go, as observed by the
code: a transport error from the client Get, or a response carrying an
HTTP status code together with the result of JSON-decoding its body
(none when decoding fails). The code never inspects the status code. -/
inductive AttemptResult : Type where
  | transportErr : AttemptResult
  | response (status : Nat) (decoded : Option (List String)) : AttemptResult
deriving DecidableEq

/-- Body of the goto-based retry loop of getList of main.go, expressed as
the equivalent bounded loop (the spec's design note 9 records that the
goto loop and the bounded loop have identical observable behavior):
attempt number tries is made while remaining counts down from 3; a
transport error or a decode failure advances tries, a decoded body is
returned as is, and exhaustion returns the empty list. -/
def getListAux (attempt : Nat → AttemptResult) (tries : Nat) : Nat → List String
  | 0 => []
  | remaining + 1 =>
    match attempt tries with
    | .response _ (some ms) => ms
    | _ => getListAux attempt (tries + 1) remaining

/-- Shallow embedding of getList of main.go: tries starts at 1 and the
guard tries > 3 leaves attempts at tries = 1, 2, 3. -/
def getList (attempt : Nat → AttemptResult) : List String :=
  getListAux attempt 1 3

/-- Outcome of the parameter-validation prefix of getHandler of main.go.
zap Logger.Fatal writes the log entry and then calls os.Exit(1), so in
the missing-parameter branch the process terminates before the
http.Error(w, ..., http.StatusBadRequest) call on the next line can run;
in the other branch the handler proceeds to the query. -/
inductive ValidationOutcome : Type where
  | processExit (exitCode : Nat) : ValidationOutcome
  | continueHandling : ValidationOutcome
deriving DecidableEq

/-- Shallow embedding of the ts/cluster validation at the top of
getHandler of main.go: req.FormValue yields the empty string for a
missing parameter, and the branch taken for an empty ts or cluster calls
logger.Fatal, which exits the process with code 1. -/
def getHandlerValidation (ts cluster : String) : ValidationOutcome :=
  if ts = "" ∨ cluster = "" then .processExit 1 else .continueHandling

/-- Decoded body of one attempt: some body only when the HTTP request
succeeded at transport and the body decoded; the status code plays no
part, mirroring getList of main.go. -/
def decodedOf : AttemptResult → Option (List String)
  | .response _ (some ms) => some ms
  | _ => none

/-- First decoded body among attempts 1, 2 and 3, with the empty list
after three failures. -/
def firstSuccessIn3 (attempt : Nat → AttemptResult) : List String :=
  match decodedOf (attempt 1) with
  | some ms => ms
  | none =>
    match decodedOf (attempt 2) with
    | some ms => ms
    | none =>
      match decodedOf (attempt 3) with
      | some ms => ms
      | none => []

mutual

/-- Lookup of the node sitting at a dotted path below a node, following
at each step the first child carrying the segment name — exactly the
node the seen map of constructTree of main.go associates with that
prefix (the builder both updates and creates through the first matching
child, and sibling names are unique in built trees). -/
def findPath : FGNode → List String → Option FGNode
  | n, [] => some n
  | n, q :: p2 => findPathL n.children q p2
termination_by _n p => (p.length, 0)

def findPathL : List FGNode → String → List String → Option FGNode
  | [], _, _ => none
  | c :: cs, q, p2 =>
    if c.name == q then findPath c p2 else findPathL cs q p2
termination_by cs _q p2 => (p2.length, cs.length)

end

/-- Value and total of the node at a dotted path: the id-free and
child-order-free content of one tree node. -/
def pathValues (t : FGNode) (p : List String) : Option (Nat × Nat) :=
  (findPath t p).map (fun n => (n.value, n.total))

/-- List-level companion of pathValues. -/
def pathValuesL (ch : List FGNode) (q : String) (p2 : List String) : Option (Nat × Nat) :=
  (findPathL ch q p2).map (fun n => (n.value, n.total))

/-- Increment performed on the (value, total) content at a path when one
more metric passes through it: an existing node is bumped, a missing
node appears with value 1 and the snapshot total. -/
def bumpInfo (T : Nat) : Option (Nat × Nat) → Option (Nat × Nat)
  | some (v, t) => some (v + 1, t)
  | none => some (1, T)

/-- Number of metrics whose segment list extends the path p: the value
constructTree accumulates at the node for prefix p. -/
def countPass (p : List String) (ms : List String) : Nat :=
  ms.countP (fun m => p.isPrefixOf (segsOf m))

@[simp] theorem FGNode.id_mk (i : Nat) (c nm : String) (t v : Nat)
    (ch : List FGNode) (ids : List Nat) : (FGNode.mk i c nm t v ch ids).id = i := rfl

@[simp] theorem FGNode.cluster_mk (i : Nat) (c nm : String) (t v : Nat)
    (ch : List FGNode) (ids : List Nat) : (FGNode.mk i c nm t v ch ids).cluster = c := rfl

@[simp] theorem FGNode.name_mk (i : Nat) (c nm : String) (t v : Nat)
    (ch : List FGNode) (ids : List Nat) : (FGNode.mk i c nm t v ch ids).name = nm := rfl

@[simp] theorem FGNode.total_mk (i : Nat) (c nm : String) (t v : Nat)
    (ch : List FGNode) (ids : List Nat) : (FGNode.mk i c nm t v ch ids).total = t := rfl

@[simp] theorem FGNode.value_mk (i : Nat) (c nm : String) (t v : Nat)
    (ch : List FGNode) (ids : List Nat) : (FGNode.mk i c nm t v ch ids).value = v := rfl

@[simp] theorem FGNode.children_mk (i : Nat) (c nm : String) (t v : Nat)
    (ch : List FGNode) (ids : List Nat) : (FGNode.mk i c nm t v ch ids).children = ch := rfl

@[simp] theorem FGNode.childrenIds_mk (i : Nat) (c nm : String) (t v : Nat)
    (ch : List FGNode) (ids : List Nat) : (FGNode.mk i c nm t v ch ids).childrenIds = ids := rfl

theorem FGNode.eta (n : FGNode) :
    FGNode.mk n.id n.cluster n.name n.total n.value n.children n.childrenIds = n := by
  cases n; rfl

theorem trimNodes_def (n : FGNode) (limit : Nat) :
    trimNodes n limit =
      FGNode.mk n.id n.cluster n.name n.total n.value (trimChildren n.children limit) n.childrenIds := by
  cases n; rfl

@[simp] theorem trimChildren_nil (limit : Nat) : trimChildren [] limit = [] := rfl

theorem trimChildren_cons (n : FGNode) (ns : List FGNode) (limit : Nat) :
    trimChildren (n :: ns) limit =
      if n.value > limit then trimNodes n limit :: trimChildren ns limit
      else trimChildren ns limit := rfl

theorem FGNode.nodes_def (n : FGNode) : n.nodes = n :: nodesList n.children := by
  cases n; rfl

@[simp] theorem nodesList_nil : nodesList [] = [] := rfl

@[simp] theorem nodesList_cons (n : FGNode) (ns : List FGNode) :
    nodesList (n :: ns) = n.nodes ++ nodesList ns := rfl

theorem self_mem_nodes (n : FGNode) : n ∈ n.nodes := by
  rw [FGNode.nodes_def]; exact List.mem_cons_self n _

theorem mem_nodesList {m : FGNode} {l : List FGNode} :
    m ∈ nodesList l ↔ ∃ c ∈ l, m ∈ c.nodes := by
  induction l with
  | nil => simp
  | cons n ns ih =>
    simp only [nodesList_cons, List.mem_append, ih, List.mem_cons]
    constructor
    · rintro (h | ⟨c, hc, hm⟩)
      · exact ⟨n, Or.inl rfl, h⟩
      · exact ⟨c, Or.inr hc, hm⟩
    · rintro ⟨c, hc | hc, hm⟩
      · exact Or.inl (hc ▸ hm)
      · exact Or.inr ⟨c, hc, hm⟩

mutual

/-- Strong induction over the nested tree type. -/
theorem FGNode.strongInd (P : FGNode → Prop)
    (h : ∀ i c nm t v ch ids, (∀ x ∈ ch, P x) → P (FGNode.mk i c nm t v ch ids)) :
    ∀ n, P n
  | .mk i c nm t v ch ids => h i c nm t v ch ids (fun x hx => strongIndList P h ch x hx)

theorem strongIndList (P : FGNode → Prop)
    (h : ∀ i c nm t v ch ids, (∀ x ∈ ch, P x) → P (FGNode.mk i c nm t v ch ids)) :
    ∀ l : List FGNode, ∀ x ∈ l, P x
  | n :: ns, x, hx => by
    rcases List.mem_cons.mp hx with h1 | h2
    · exact h1 ▸ FGNode.strongInd P h n
    · exact strongIndList P h ns x h2

end

example : trimNodes (.mk 1 "c" "all" 1 1 [] []) 5 = .mk 1 "c" "all" 1 1 [] [] := rfl
example : (FGNode.mk 1 "c" "all" 1 1 [] []).nodes = [.mk 1 "c" "all" 1 1 [] []] := rfl

theorem convertToClickhouse_def (n : FGNode) (ts : Int) :
    convertToClickhouse n ts = record n ts :: convertChildren n.children ts := by
  cases n; rfl

@[simp] theorem convertChildren_nil (ts : Int) : convertChildren [] ts = [] := rfl

@[simp] theorem convertChildren_cons (n : FGNode) (ns : List FGNode) (ts : Int) :
    convertChildren (n :: ns) ts =
      record n ts :: (convertToClickhouse n ts ++ convertChildren ns ts) := rfl

theorem FGNode.height_def (n : FGNode) : n.height = 1 + heightList n.children := by
  cases n; rfl

@[simp] theorem heightList_nil : heightList [] = 0 := rfl

@[simp] theorem heightList_cons (n : FGNode) (ns : List FGNode) :
    heightList (n :: ns) = max n.height (heightList ns) := rfl

@[simp] theorem reconstructChildren_zero (data : Nat → Option ChField) (minValue : Nat)
    (ids : List Nat) : reconstructChildren data minValue 0 ids = [] := by
  cases ids <;> simp [reconstructChildren]

@[simp] theorem reconstructChildren_nil (data : Nat → Option ChField) (minValue fuel : Nat) :
    reconstructChildren data minValue fuel [] = [] := by
  cases fuel <;> simp [reconstructChildren]

theorem reconstructChildren_cons (data : Nat → Option ChField) (minValue fuel : Nat)
    (i : Nat) (rest : List Nat) :
    reconstructChildren data minValue (fuel + 1) (i :: rest) =
      match data i with
      | some f =>
        if f.value > minValue then
          FGNode.mk f.id f.cluster f.name f.total f.value
              (reconstructChildren data minValue fuel f.childrenIds) f.childrenIds
            :: reconstructChildren data minValue (fuel + 1) rest
        else reconstructChildren data minValue (fuel + 1) rest
      | none => reconstructChildren data minValue (fuel + 1) rest := by
  rw [reconstructChildren]

example : splitOnDot "a.b.c" = ["a", "b", "c"] := by decide
example : splitOnDot "" = [""] := by decide
example : splitOnDot "a..c" = ["a", "", "c"] := by decide
example : segsOf "a.b.c" = ["a", "b"] := by decide
example : segsOf "a" = [] := by decide
example : segsOf ".a.b" = ["a"] := by decide

/-- C1: the claim says a request to the query endpoint with an empty ts
or cluster parameter is answered with status 400 as a client error and
the process keeps running. The code instead reaches logger.Fatal, which
terminates the whole process with exit code 1 before the
http.Error(..., StatusBadRequest) call on the following line can
execute, so the embedded validation yields process termination, not a
400 response, for either missing parameter. -/
theorem getHandlerValidation_missing_param_exits :
    getHandlerValidation "" "cluster1" = ValidationOutcome.processExit 1 ∧
    getHandlerValidation "1509000000" "" = ValidationOutcome.processExit 1 ∧
    getHandlerValidation "1509000000" "cluster1" = ValidationOutcome.continueHandling := by
  refine ⟨?_, ?_, ?_⟩ <;> decide

theorem getListAux_succ (attempt : Nat → AttemptResult) (t r : Nat) :
    getListAux attempt t (r + 1) =
      match decodedOf (attempt t) with
      | some ms => ms
      | none => getListAux attempt (t + 1) r := by
  cases h : attempt t with
  | transportErr => simp [getListAux, decodedOf, h]
  | response st d => cases d <;> simp [getListAux, decodedOf, h]

/-- C7 (amended): every attempt that fails at transport or whose body
cannot be decoded as the JSON listing is retried, up to 3 attempts
total, and after the third failed attempt the fetch gives up with the
empty list; the HTTP status code is never inspected, so an attempt is a
failure only through transport or decoding, never through a non-2xx
status alone. getList is exactly the first decoded body among attempts
1, 2 and 3, or the empty list when all three fail. -/
theorem getList_eq_firstSuccessIn3 (attempt : Nat → AttemptResult) :
    getList attempt = firstSuccessIn3 attempt := by
  rw [getList, getListAux_succ, firstSuccessIn3]
  cases h1 : decodedOf (attempt 1) with
  | some ms => rfl
  | none =>
    rw [getListAux_succ]
    cases h2 : decodedOf (attempt 2) with
    | some ms => rfl
    | none =>
      rw [getListAux_succ]
      cases h3 : decodedOf (attempt 3) with
      | some ms => rfl
      | none => simp [getListAux]

/-- C7 (counterexample): per the claim a non-2xx response counts as a
failed attempt and is retried, so a host answering 500 on every attempt
ought to contribute no names; in the code a 500 response whose body
decodes as a listing is accepted on the first attempt and its names are
returned. -/
theorem getList_accepts_non2xx :
    getList (fun _ => AttemptResult.response 500 (some ["m1"])) = ["m1"] ∧
    (["m1"] : List String) ≠ [] := by
  exact ⟨rfl, by decide⟩

/-- C2: the claim says flattening produces exactly one RowRecord per
node. convertToClickhouse of main.go appends, for every child, the
child's row and then the rows of the recursive call on the child, whose
head is that child's row again, so every non-root node is emitted twice:
a flattened tree has 2n - 1 rows for n nodes, not n. At the concrete
two-node tree below the flattening has three rows, the child's row
appearing twice (each emitted row does embed its node's own id and
childrenIds, per the record embedding). -/
theorem convertToClickhouse_duplicates_rows :
    (∀ t : FGNode, ∀ ts : Int,
      (convertToClickhouse t ts).length = 2 * t.nodes.length - 1) ∧
    convertToClickhouse (FGNode.mk 1 "c" "all" 1 1 [FGNode.mk 2 "c" "a" 1 1 [] []] [2]) 7 =
      [record (FGNode.mk 1 "c" "all" 1 1 [FGNode.mk 2 "c" "a" 1 1 [] []] [2]) 7,
       record (FGNode.mk 2 "c" "a" 1 1 [] []) 7,
       record (FGNode.mk 2 "c" "a" 1 1 [] []) 7] ∧
    (FGNode.mk 1 "c" "all" 1 1 [FGNode.mk 2 "c" "a" 1 1 [] []] [2]).nodes.length = 2 := by
  refine ⟨?_, rfl, rfl⟩
  intro t ts
  induction t using FGNode.strongInd with
  | h i c nm tt v ch ids ih =>
    rw [convertToClickhouse_def, FGNode.nodes_def]
    simp only [List.length_cons, FGNode.children_mk]
    have hch : (convertChildren ch ts).length = 2 * (nodesList ch).length := by
      induction ch with
      | nil => simp
      | cons n ns ihl =>
        have hn := ih n (List.mem_cons_self n ns)
        have hns : (convertChildren ns ts).length = 2 * (nodesList ns).length :=
          ihl (fun x hx => ih x (List.mem_cons_of_mem n hx))
        have hpos : 1 ≤ n.nodes.length := by
          rw [FGNode.nodes_def]; simp [Nat.succ_le_succ]
        simp only [convertChildren_cons, nodesList_cons, List.length_cons,
          List.length_append]
        omega
    omega

theorem mem_trimChildren {c2 : FGNode} {ch : List FGNode} {f : Nat} :
    c2 ∈ trimChildren ch f ↔ ∃ c ∈ ch, f < c.value ∧ c2 = trimNodes c f := by
  induction ch with
  | nil => simp [trimChildren]
  | cons n ns ih =>
    by_cases h : n.value > f
    · simp only [trimChildren, if_pos h, List.mem_cons, ih, List.mem_cons]
      constructor
      · rintro (h1 | ⟨c, hc, hv, he⟩)
        · exact ⟨n, Or.inl rfl, h, h1⟩
        · exact ⟨c, Or.inr hc, hv, he⟩
      · rintro ⟨c, hc | hc, hv, he⟩
        · exact Or.inl (by rw [he, hc])
        · exact Or.inr ⟨c, hc, hv, he⟩
    · simp only [trimChildren, if_neg h, ih, List.mem_cons]
      constructor
      · rintro ⟨c, hc, hv, he⟩
        exact ⟨c, Or.inr hc, hv, he⟩
      · rintro ⟨c, hc | hc, hv, he⟩
        · exact absurd (hc ▸ hv) h
        · exact ⟨c, hc, hv, he⟩

theorem nodes_trans : ∀ t : FGNode, ∀ m ∈ t.nodes, ∀ d ∈ m.nodes, d ∈ t.nodes := by
  intro t
  induction t using FGNode.strongInd with
  | h i c nm tt v ch ids ih =>
    intro m hm d hd
    rw [FGNode.nodes_def] at hm ⊢
    rcases List.mem_cons.mp hm with h1 | h2
    · rw [h1, FGNode.nodes_def] at hd
      simpa using hd
    · simp only [FGNode.children_mk] at h2 ⊢
      rcases mem_nodesList.mp h2 with ⟨c0, hc0, hmc0⟩
      exact List.mem_cons_of_mem _
        (mem_nodesList.mpr ⟨c0, hc0, ih c0 hc0 m hmc0 d hd⟩)

theorem mem_idsOf_of_mem_nodes {d t : FGNode} (h : d ∈ t.nodes) : d.id ∈ idsOf t :=
  List.mem_map_of_mem FGNode.id h

/-- Every node of a trimmed tree is the trimming of a node of the
original tree (so its id, cluster, name, total, value and childrenIds
are those of that original node; only children is rewritten). -/
theorem trim_node_source (f : Nat) :
    ∀ t : FGNode, ∀ m ∈ (trimNodes t f).nodes, ∃ m0 ∈ t.nodes, m = trimNodes m0 f := by
  intro t
  induction t using FGNode.strongInd with
  | h i c nm tt v ch ids ih =>
    intro m hm
    rw [trimNodes_def, FGNode.nodes_def] at hm
    simp only [FGNode.children_mk, FGNode.childrenIds_mk, FGNode.id_mk, FGNode.cluster_mk,
      FGNode.name_mk, FGNode.total_mk, FGNode.value_mk] at hm
    rcases List.mem_cons.mp hm with h1 | h2
    · refine ⟨FGNode.mk i c nm tt v ch ids, self_mem_nodes _, ?_⟩
      rw [h1, trimNodes_def]; simp
    · rcases mem_nodesList.mp h2 with ⟨c2, hc2, hmc2⟩
      rcases mem_trimChildren.mp hc2 with ⟨c0, hc0, _, he⟩
      rcases ih c0 hc0 m (he ▸ hmc2) with ⟨m0, hm0, he0⟩
      refine ⟨m0, ?_, he0⟩
      rw [FGNode.nodes_def]
      exact List.mem_cons_of_mem _ (mem_nodesList.mpr ⟨c0, hc0, hm0⟩)

/-- Every node strictly below the root of a trimmed tree has value
strictly above the floor (the root itself is never examined). -/
theorem trim_desc_gt (f : Nat) :
    ∀ t : FGNode, ∀ m ∈ nodesList (trimNodes t f).children, f < m.value := by
  intro t
  induction t using FGNode.strongInd with
  | h i c nm tt v ch ids ih =>
    intro m hm
    rw [trimNodes_def] at hm
    simp only [FGNode.children_mk] at hm
    rcases mem_nodesList.mp hm with ⟨c2, hc2, hmc2⟩
    rcases mem_trimChildren.mp hc2 with ⟨c0, hc0, hv, he⟩
    subst he
    rw [FGNode.nodes_def] at hmc2
    rcases List.mem_cons.mp hmc2 with h1 | h2
    · have : m.value = c0.value := by rw [h1, trimNodes_def]; simp
      omega
    · exact ih c0 hc0 m h2

theorem trim_ids_subset (f : Nat) {t : FGNode} {x : Nat}
    (h : x ∈ idsOf (trimNodes t f)) : x ∈ idsOf t := by
  rcases List.mem_map.mp h with ⟨m, hm, he⟩
  rcases trim_node_source f t m hm with ⟨m0, hm0, he0⟩
  have : m.id = m0.id := by rw [he0, trimNodes_def]; simp
  exact he ▸ this ▸ mem_idsOf_of_mem_nodes hm0

theorem idsList_cons (c : FGNode) (cs : List FGNode) :
    (nodesList (c :: cs)).map FGNode.id = idsOf c ++ (nodesList cs).map FGNode.id := by
  simp [idsOf, List.map_append]

theorem idsOf_def (t : FGNode) :
    idsOf t = t.id :: (nodesList t.children).map FGNode.id := by
  rw [idsOf, FGNode.nodes_def]; rfl

theorem mem_ids_trimChildren {x : Nat} {cs : List FGNode} {f : Nat}
    (h : x ∈ (nodesList (trimChildren cs f)).map FGNode.id) :
    ∃ c ∈ cs, x ∈ idsOf c := by
  rcases List.mem_map.mp h with ⟨m, hm, he⟩
  rcases mem_nodesList.mp hm with ⟨c2, hc2, hmc2⟩
  rcases mem_trimChildren.mp hc2 with ⟨c0, hc0, _, he0⟩
  exact ⟨c0, hc0, trim_ids_subset f (he ▸ mem_idsOf_of_mem_nodes (he0 ▸ hmc2))⟩

theorem trim_absent_list (f : Nat) (d m : FGNode) :
    ∀ ch : List FGNode,
      (∀ c ∈ ch, (idsOf c).Nodup →
        ∀ m2 ∈ nodesList c.children, m2.value ≤ f →
          ∀ d2 ∈ m2.nodes, FGNode.id d2 ∉ idsOf (trimNodes c f)) →
      ((nodesList ch).map FGNode.id).Nodup →
      ∀ c0 ∈ ch, m ∈ c0.nodes → m.value ≤ f → d ∈ m.nodes →
      FGNode.id d ∉ (nodesList (trimChildren ch f)).map FGNode.id := by
  intro ch
  induction ch with
  | nil => intro _ _ c0 hc0; exact absurd hc0 (List.not_mem_nil c0)
  | cons c cs ihl =>
    intro hIH hnd c0 hc0 hm hv hd
    rw [idsList_cons] at hnd
    have hnd1 : (idsOf c).Nodup := (List.nodup_append.mp hnd).1
    have hnd2 : ((nodesList cs).map FGNode.id).Nodup := (List.nodup_append.mp hnd).2.1
    have hdisj : ∀ a ∈ idsOf c, a ∉ (nodesList cs).map FGNode.id :=
      fun a ha => (List.nodup_append.mp hnd).2.2 ha
    have hdc0 : d ∈ c0.nodes := nodes_trans c0 m hm d hd
    have step : trimChildren (c :: cs) f =
        if c.value > f then trimNodes c f :: trimChildren cs f else trimChildren cs f := rfl
    rcases List.mem_cons.mp hc0 with hceq | hcs
    · subst hceq
      have hdid : d.id ∈ idsOf c0 := mem_idsOf_of_mem_nodes hdc0
      by_cases hk : c0.value > f
      · rw [step, if_pos hk, idsList_cons]
        intro hmem
        rcases List.mem_append.mp hmem with h1 | h2
        · have hmne : m ∈ nodesList c0.children := by
            rw [FGNode.nodes_def] at hm
            rcases List.mem_cons.mp hm with he | hn
            · exact absurd (he ▸ hv) (by omega)
            · exact hn
          exact hIH c0 (List.mem_cons_self _ _) hnd1 m hmne hv d hd h1
        · rcases mem_ids_trimChildren h2 with ⟨c2, hc2, hx⟩
          exact hdisj d.id hdid (List.mem_map.mp hx |>.elim
            (fun m2 hm2 => by
              rcases List.mem_map.mp hx with ⟨m3, hm3, he3⟩
              exact he3 ▸ List.mem_map_of_mem FGNode.id
                (mem_nodesList.mpr ⟨c2, hc2, hm3⟩)))
      · rw [step, if_neg hk]
        intro hmem
        rcases mem_ids_trimChildren hmem with ⟨c2, hc2, hx⟩
        refine hdisj d.id hdid ?_
        rcases List.mem_map.mp hx with ⟨m3, hm3, he3⟩
        exact he3 ▸ List.mem_map_of_mem FGNode.id (mem_nodesList.mpr ⟨c2, hc2, hm3⟩)
    · have hdid : d.id ∈ (nodesList cs).map FGNode.id :=
        List.mem_map_of_mem FGNode.id (mem_nodesList.mpr ⟨c0, hcs, hdc0⟩)
      have htail : FGNode.id d ∉ (nodesList (trimChildren cs f)).map FGNode.id :=
        ihl (fun c2 hc2 => hIH c2 (List.mem_cons_of_mem c hc2)) hnd2 c0 hcs hm hv hd
      by_cases hk : c.value > f
      · rw [step, if_pos hk, idsList_cons]
        intro hmem
        rcases List.mem_append.mp hmem with h1 | h2
        · exact hdisj d.id (trim_ids_subset f h1) hdid
        · exact htail h2
      · rw [step, if_neg hk]
        exact htail

/-- Under snapshot-unique ids, a non-root node whose value is at or
below the floor disappears from the trimmed tree together with every
node of its subtree, whatever their values. -/
theorem trim_absent (f : Nat) :
    ∀ t : FGNode, (idsOf t).Nodup →
      ∀ m ∈ nodesList t.children, m.value ≤ f →
        ∀ d ∈ m.nodes, FGNode.id d ∉ idsOf (trimNodes t f) := by
  intro t
  induction t using FGNode.strongInd with
  | h i c nm tt v ch ids ih =>
    intro hnd m hm hv d hd
    rw [idsOf_def] at hnd
    simp only [FGNode.id_mk, FGNode.children_mk] at hnd hm
    have hnd2 : ((nodesList ch).map FGNode.id).Nodup := (List.nodup_cons.mp hnd).2
    have hi : i ∉ (nodesList ch).map FGNode.id := (List.nodup_cons.mp hnd).1
    rw [trimNodes_def, idsOf_def]
    simp only [FGNode.id_mk, FGNode.children_mk]
    intro hmem
    rcases List.mem_cons.mp hmem with h1 | h2
    · rcases mem_nodesList.mp hm with ⟨c0, hc0, hmc0⟩
      have : d ∈ nodesList ch := mem_nodesList.mpr ⟨c0, hc0, nodes_trans c0 m hmc0 d hd⟩
      exact hi (h1 ▸ List.mem_map_of_mem FGNode.id this)
    · rcases mem_nodesList.mp hm with ⟨c0, hc0, hmc0⟩
      exact trim_absent_list f d m ch ih hnd2 c0 hc0 hmc0 hv hd h2

/-- C5 (counterexample): the claim as stated requires every node
remaining after trimming with floor f to have value strictly above f,
but trimNodes never examines the node it is called on: a root whose
value is at or below the floor survives. Here the root of value 1
remains in the tree trimmed with floor 5. -/
theorem trim_keeps_low_root :
    FGNode.mk 1 "c" "all" 1 1 [] [] ∈
      (trimNodes (FGNode.mk 1 "c" "all" 1 1 [] []) 5).nodes ∧
    ¬ 5 < (FGNode.mk 1 "c" "all" 1 1 [] []).value := by
  constructor
  · rw [show trimNodes (FGNode.mk 1 "c" "all" 1 1 [] []) 5 =
        FGNode.mk 1 "c" "all" 1 1 [] [] from rfl]
    exact self_mem_nodes _
  · decide

/-- C5 (amended): after trimming with floor f, every node other than
the root has value strictly above f; and, under snapshot-unique ids,
every non-root node with value at or below f is absent together with
its entire subtree (every id of that subtree, including descendants
whose own value exceeds f, is gone from the trimmed tree) — a node
whose value equals f exactly therefore is removed. The root is kept
regardless of its value. -/
theorem trim_floor_semantics (t : FGNode) (f : Nat) (hnd : (idsOf t).Nodup) :
    (∀ m ∈ nodesList (trimNodes t f).children, f < m.value) ∧
    (∀ m ∈ nodesList t.children, m.value ≤ f →
      ∀ d ∈ m.nodes, FGNode.id d ∉ idsOf (trimNodes t f)) :=
  ⟨trim_desc_gt f t, trim_absent f t hnd⟩

/-- Witness for C5: a tree where the node of value 1 (= the floor) is
removed together with its child of value 2 (> the floor). -/
theorem trim_floor_semantics_witness :
    (idsOf (FGNode.mk 1 "c" "all" 3 3
        [FGNode.mk 2 "c" "a" 3 1 [FGNode.mk 3 "c" "b" 3 2 [] []] [3]] [2])).Nodup ∧
    ((∀ m ∈ nodesList (trimNodes (FGNode.mk 1 "c" "all" 3 3
        [FGNode.mk 2 "c" "a" 3 1 [FGNode.mk 3 "c" "b" 3 2 [] []] [3]] [2]) 1).children,
        1 < m.value) ∧
     (∀ m ∈ nodesList (FGNode.mk 1 "c" "all" 3 3
        [FGNode.mk 2 "c" "a" 3 1 [FGNode.mk 3 "c" "b" 3 2 [] []] [3]] [2]).children,
        m.value ≤ 1 → ∀ d ∈ m.nodes,
          FGNode.id d ∉ idsOf (trimNodes (FGNode.mk 1 "c" "all" 3 3
            [FGNode.mk 2 "c" "a" 3 1 [FGNode.mk 3 "c" "b" 3 2 [] []] [3]] [2]) 1))) :=
  ⟨by decide, trim_floor_semantics _ 1 (by decide)⟩

/-- C8: trimming rewrites only children sequences: the root keeps its
id, name, value and total, and every surviving node carries exactly the
id, name, value and total of the original node it came from; in
particular no surviving ancestor's value or total is reduced to account
for removed children. -/
theorem trim_frame (t : FGNode) (f : Nat) :
    (trimNodes t f).id = t.id ∧ (trimNodes t f).name = t.name ∧
    (trimNodes t f).value = t.value ∧ (trimNodes t f).total = t.total ∧
    ∀ m ∈ (trimNodes t f).nodes, ∃ m0 ∈ t.nodes,
      m.id = m0.id ∧ m.name = m0.name ∧ m.value = m0.value ∧ m.total = m0.total := by
  refine ⟨by rw [trimNodes_def]; simp, by rw [trimNodes_def]; simp,
    by rw [trimNodes_def]; simp, by rw [trimNodes_def]; simp, ?_⟩
  intro m hm
  rcases trim_node_source f t m hm with ⟨m0, hm0, he⟩
  exact ⟨m0, hm0, by rw [he, trimNodes_def]; simp, by rw [he, trimNodes_def]; simp,
    by rw [he, trimNodes_def]; simp, by rw [he, trimNodes_def]; simp⟩

/-- Witness for C8 at a concrete tree and floor. -/
theorem trim_frame_witness :
    FGNode.mk 2 "c" "a" 2 2 [] [] ∈
      (trimNodes (FGNode.mk 1 "c" "all" 2 2 [FGNode.mk 2 "c" "a" 2 2 [] []] [2]) 1).nodes ∧
    ∃ m0 ∈ (FGNode.mk 1 "c" "all" 2 2 [FGNode.mk 2 "c" "a" 2 2 [] []] [2]).nodes,
      (FGNode.mk 2 "c" "a" 2 2 [] []).id = m0.id ∧
      (FGNode.mk 2 "c" "a" 2 2 [] []).name = m0.name ∧
      (FGNode.mk 2 "c" "a" 2 2 [] []).value = m0.value ∧
      (FGNode.mk 2 "c" "a" 2 2 [] []).total = m0.total := by
  have hmem : FGNode.mk 2 "c" "a" 2 2 [] [] ∈
      (trimNodes (FGNode.mk 1 "c" "all" 2 2 [FGNode.mk 2 "c" "a" 2 2 [] []] [2]) 1).nodes := by
    rw [show (trimNodes (FGNode.mk 1 "c" "all" 2 2 [FGNode.mk 2 "c" "a" 2 2 [] []] [2]) 1).nodes =
      [FGNode.mk 1 "c" "all" 2 2 [FGNode.mk 2 "c" "a" 2 2 [] []] [2],
       FGNode.mk 2 "c" "a" 2 2 [] []] from rfl]
    exact List.mem_cons_of_mem _ (List.mem_cons_self _ _)
  exact ⟨hmem,
    (trim_frame (FGNode.mk 1 "c" "all" 2 2 [FGNode.mk 2 "c" "a" 2 2 [] []] [2]) 1).2.2.2.2
      (FGNode.mk 2 "c" "a" 2 2 [] []) hmem⟩

/-- C10: trimming never rewrites a childrenIds list: the root and every
surviving node keep exactly the childrenIds of the original node they
came from, even when the corresponding children were removed. At the
concrete tree below the single child (value 1, floor 1) is removed,
after which the root's children sequence is empty while its childrenIds
still lists the removed child's id 2 — the children/childrenIds
parallelism is not preserved by trimming. -/
theorem trim_childrenIds_unchanged (t : FGNode) (f : Nat) :
    ((trimNodes t f).childrenIds = t.childrenIds ∧
     ∀ m ∈ (trimNodes t f).nodes, ∃ m0 ∈ t.nodes, m.childrenIds = m0.childrenIds) ∧
    ((trimNodes (FGNode.mk 1 "c" "all" 2 2 [FGNode.mk 2 "c" "a" 2 1 [] []] [2]) 1).children
        = [] ∧
     (trimNodes (FGNode.mk 1 "c" "all" 2 2 [FGNode.mk 2 "c" "a" 2 1 [] []] [2]) 1).childrenIds
        = [2]) := by
  refine ⟨⟨by rw [trimNodes_def]; simp, ?_⟩, rfl, rfl⟩
  intro m hm
  rcases trim_node_source f t m hm with ⟨m0, hm0, he⟩
  exact ⟨m0, hm0, by rw [he, trimNodes_def]; simp⟩

/-- Witness for C10 at a concrete tree and floor. -/
theorem trim_childrenIds_unchanged_witness :
    FGNode.mk 3 "c" "b" 3 2 [] [7] ∈
      (trimNodes (FGNode.mk 1 "c" "all" 3 3 [FGNode.mk 3 "c" "b" 3 2 [] [7]] [3]) 1).nodes ∧
    ∃ m0 ∈ (FGNode.mk 1 "c" "all" 3 3 [FGNode.mk 3 "c" "b" 3 2 [] [7]] [3]).nodes,
      (FGNode.mk 3 "c" "b" 3 2 [] [7]).childrenIds = m0.childrenIds := by
  have hmem : FGNode.mk 3 "c" "b" 3 2 [] [7] ∈
      (trimNodes (FGNode.mk 1 "c" "all" 3 3 [FGNode.mk 3 "c" "b" 3 2 [] [7]] [3]) 1).nodes := by
    rw [show (trimNodes (FGNode.mk 1 "c" "all" 3 3 [FGNode.mk 3 "c" "b" 3 2 [] [7]] [3]) 1).nodes =
      [FGNode.mk 1 "c" "all" 3 3 [FGNode.mk 3 "c" "b" 3 2 [] [7]] [3],
       FGNode.mk 3 "c" "b" 3 2 [] [7]] from rfl]
    exact List.mem_cons_of_mem _ (List.mem_cons_self _ _)
  exact ⟨hmem,
    ((trim_childrenIds_unchanged
        (FGNode.mk 1 "c" "all" 3 3 [FGNode.mk 3 "c" "b" 3 2 [] [7]] [3]) 1).1.2
      (FGNode.mk 3 "c" "b" 3 2 [] [7]) hmem)⟩

@[simp] theorem record_timestamp (n : FGNode) (ts : Int) : (record n ts).timestamp = ts := rfl

@[simp] theorem record_cluster (n : FGNode) (ts : Int) : (record n ts).cluster = n.cluster := rfl

@[simp] theorem record_name (n : FGNode) (ts : Int) : (record n ts).name = n.name := rfl

@[simp] theorem record_total (n : FGNode) (ts : Int) : (record n ts).total = n.total := rfl

@[simp] theorem record_id (n : FGNode) (ts : Int) : (record n ts).id = n.id := rfl

@[simp] theorem record_value (n : FGNode) (ts : Int) : (record n ts).value = n.value := rfl

@[simp] theorem record_childrenIds (n : FGNode) (ts : Int) :
    (record n ts).childrenIds = n.childrenIds := rfl

/-- Every row of a flattened tree is the record of one of its nodes. -/
theorem mem_convert (ts : Int) :
    ∀ t : FGNode, ∀ x ∈ convertToClickhouse t ts, ∃ m ∈ t.nodes, x = record m ts := by
  intro t
  induction t using FGNode.strongInd with
  | h i c nm tt v ch ids ih =>
    intro x hx
    rw [convertToClickhouse_def] at hx
    simp only [FGNode.children_mk] at hx
    rcases List.mem_cons.mp hx with h1 | h2
    · exact ⟨FGNode.mk i c nm tt v ch ids, self_mem_nodes _, h1⟩
    · have : ∃ m ∈ nodesList ch, x = record m ts := by
        clear hx
        induction ch with
        | nil => simp at h2
        | cons n ns ihl =>
          rcases List.mem_cons.mp h2 with ha | hb
          · exact ⟨n, mem_nodesList.mpr ⟨n, List.mem_cons_self n ns, self_mem_nodes n⟩, ha⟩
          · rcases List.mem_append.mp hb with hc | hd
            · rcases ih n (List.mem_cons_self n ns) x hc with ⟨m, hm, he⟩
              exact ⟨m, mem_nodesList.mpr ⟨n, List.mem_cons_self n ns, hm⟩, he⟩
            · rcases ihl (fun y hy => ih y (List.mem_cons_of_mem n hy)) hd with ⟨m, hm, he⟩
              rcases mem_nodesList.mp hm with ⟨c0, hc0, hmc0⟩
              exact ⟨m, mem_nodesList.mpr ⟨c0, List.mem_cons_of_mem n hc0, hmc0⟩, he⟩
      rcases this with ⟨m, hm, he⟩
      refine ⟨m, ?_, he⟩
      rw [FGNode.nodes_def]
      exact List.mem_cons_of_mem _ (by simpa using hm)

/-- The record of every node of a tree occurs among the flattened rows. -/
theorem record_mem_convert (ts : Int) :
    ∀ t : FGNode, ∀ m ∈ t.nodes, record m ts ∈ convertToClickhouse t ts := by
  intro t
  induction t using FGNode.strongInd with
  | h i c nm tt v ch ids ih =>
    intro m hm
    rw [convertToClickhouse_def]
    rw [FGNode.nodes_def] at hm
    simp only [FGNode.children_mk] at hm ⊢
    rcases List.mem_cons.mp hm with h1 | h2
    · exact h1 ▸ List.mem_cons_self _ _
    · rcases mem_nodesList.mp h2 with ⟨c0, hc0, hmc0⟩
      refine List.mem_cons_of_mem _ ?_
      have hin : record m ts ∈ convertToClickhouse c0 ts := ih c0 hc0 m hmc0
      clear hm h2 hmc0 ih
      induction ch with
      | nil => exact absurd hc0 (List.not_mem_nil c0)
      | cons n ns ihl =>
        rcases List.mem_cons.mp hc0 with ha | hb
        · exact List.mem_cons_of_mem _ (List.mem_append_left _ (ha ▸ hin))
        · exact List.mem_cons_of_mem _ (List.mem_append_right _ (ihl hb))

/-- Under snapshot-unique node ids, keying the flattened rows by id and
looking up a node's id yields exactly that node's record (the duplicate
rows of convertToClickhouse are identical, so the overwrite-on-rescan of
getHandler is harmless). -/
theorem keyed_convert (ts : Int) {t : FGNode} (hnd : (idsOf t).Nodup) :
    ∀ m ∈ t.nodes, keyed (convertToClickhouse t ts) m.id = some (record m ts) := by
  intro m hm
  unfold keyed
  have hex : ∃ x ∈ (convertToClickhouse t ts).reverse, x.id == m.id :=
    ⟨record m ts, List.mem_reverse.mpr (record_mem_convert ts t m hm), by simp⟩
  obtain ⟨r, hr⟩ := Option.isSome_iff_exists.mp (List.find?_isSome.mpr hex)
  rw [hr]
  have hrid : r.id = m.id := by simpa using List.find?_some hr
  rcases mem_convert ts t r (List.mem_reverse.mp (List.mem_of_find?_eq_some hr)) with
    ⟨m2, hm2, he2⟩
  have hmid : m2.id = m.id := by rw [he2] at hrid; simpa using hrid
  have : m2 = m := List.inj_on_of_nodup_map hnd hm2 hm hmid
  rw [he2, this]

theorem height_le_of_mem {c : FGNode} {ch : List FGNode} (h : c ∈ ch) :
    c.height ≤ heightList ch := by
  induction ch with
  | nil => exact absurd h (List.not_mem_nil c)
  | cons n ns ih =>
    rcases List.mem_cons.mp h with h1 | h2
    · rw [h1]; simp
    · exact le_trans (ih h2) (by simp)

/-- Core reconstruction lemma: walking a children-id list of a tree whose
rows are all present in the keyed data reproduces exactly the trimming
of those children with the same floor, given fuel at least the height. -/
theorem reconstructChildren_eq_trim (data : Nat → Option ChField) (ts : Int) (f : Nat) :
    ∀ fuel : Nat, ∀ ch : List FGNode,
      (∀ m ∈ nodesList ch, data m.id = some (record m ts)) →
      (∀ m ∈ nodesList ch, m.childrenIds = m.children.map FGNode.id) →
      heightList ch ≤ fuel →
      reconstructChildren data f fuel (ch.map FGNode.id) = trimChildren ch f := by
  intro fuel
  induction fuel with
  | zero =>
    intro ch hdata hpar hh
    cases ch with
    | nil => simp
    | cons c cs =>
      exfalso
      have h1 : c.height ≤ heightList (c :: cs) := height_le_of_mem (List.mem_cons_self c cs)
      rw [FGNode.height_def] at h1
      omega
  | succ fuel ih =>
    intro ch
    induction ch with
    | nil => intro _ _ _; simp
    | cons c cs ihl =>
      intro hdata hpar hh
      have hcdata : data c.id = some (record c ts) :=
        hdata c (mem_nodesList.mpr ⟨c, List.mem_cons_self c cs, self_mem_nodes c⟩)
      have hpc : c.childrenIds = c.children.map FGNode.id :=
        hpar c (mem_nodesList.mpr ⟨c, List.mem_cons_self c cs, self_mem_nodes c⟩)
      have hhc : heightList c.children ≤ fuel := by
        have h1 : c.height ≤ heightList (c :: cs) := height_le_of_mem (List.mem_cons_self c cs)
        rw [FGNode.height_def] at h1
        omega
      have hhcs : heightList cs ≤ fuel + 1 := by
        have : heightList cs ≤ heightList (c :: cs) := by simp
        omega
      have hdatac : ∀ m ∈ nodesList c.children, data m.id = some (record m ts) := by
        intro m hm
        refine hdata m (mem_nodesList.mpr ⟨c, List.mem_cons_self c cs, ?_⟩)
        rw [FGNode.nodes_def]
        exact List.mem_cons_of_mem _ hm
      have hparc : ∀ m ∈ nodesList c.children, m.childrenIds = m.children.map FGNode.id := by
        intro m hm
        refine hpar m (mem_nodesList.mpr ⟨c, List.mem_cons_self c cs, ?_⟩)
        rw [FGNode.nodes_def]
        exact List.mem_cons_of_mem _ hm
      have hdatacs : ∀ m ∈ nodesList cs, data m.id = some (record m ts) := by
        intro m hm
        rcases mem_nodesList.mp hm with ⟨c0, hc0, hmc0⟩
        exact hdata m (mem_nodesList.mpr ⟨c0, List.mem_cons_of_mem c hc0, hmc0⟩)
      have hparcs : ∀ m ∈ nodesList cs, m.childrenIds = m.children.map FGNode.id := by
        intro m hm
        rcases mem_nodesList.mp hm with ⟨c0, hc0, hmc0⟩
        exact hpar m (mem_nodesList.mpr ⟨c0, List.mem_cons_of_mem c hc0, hmc0⟩)
      have htail : reconstructChildren data f (fuel + 1) (cs.map FGNode.id) =
          trimChildren cs f := ihl hdatacs hparcs hhcs
      rw [List.map_cons, reconstructChildren_cons, hcdata]
      simp only [record_value, record_id, record_cluster, record_name, record_total,
        record_childrenIds]
      show (if c.value > f then
          FGNode.mk c.id c.cluster c.name c.total c.value
              (reconstructChildren data f fuel c.childrenIds) c.childrenIds
            :: reconstructChildren data f (fuel + 1) (cs.map FGNode.id)
        else reconstructChildren data f (fuel + 1) (cs.map FGNode.id)) =
        trimChildren (c :: cs) f
      by_cases hv : c.value > f
      · rw [if_pos hv, htail,
          show trimChildren (c :: cs) f = trimNodes c f :: trimChildren cs f from by
            rw [show trimChildren (c :: cs) f =
              if c.value > f then trimNodes c f :: trimChildren cs f
              else trimChildren cs f from rfl, if_pos hv]]
        congr 1
        rw [trimNodes_def]
        congr 1
        rw [hpc]
        exact ih c.children hdatac hparc hhc
      · rw [if_neg hv, htail,
          show trimChildren (c :: cs) f =
            if c.value > f then trimNodes c f :: trimChildren cs f
            else trimChildren cs f from rfl, if_neg hv]

theorem trim_zero_children :
    ∀ ch : List FGNode,
      (∀ x ∈ ch, (∀ m ∈ nodesList x.children, 0 < m.value) → trimNodes x 0 = x) →
      (∀ m ∈ nodesList ch, 0 < m.value) → trimChildren ch 0 = ch := by
  intro ch
  induction ch with
  | nil => intro _ _; rfl
  | cons c0 cs ihl =>
    intro hihs hpos
    have hv : 0 < c0.value :=
      hpos c0 (mem_nodesList.mpr ⟨c0, List.mem_cons_self c0 cs, self_mem_nodes c0⟩)
    have hc0 : trimNodes c0 0 = c0 :=
      hihs c0 (List.mem_cons_self c0 cs) (fun m hm =>
        hpos m (mem_nodesList.mpr ⟨c0, List.mem_cons_self c0 cs, by
          rw [FGNode.nodes_def]; exact List.mem_cons_of_mem _ hm⟩))
    have hcs : trimChildren cs 0 = cs :=
      ihl (fun x hx => hihs x (List.mem_cons_of_mem c0 hx)) (fun m hm => by
        rcases mem_nodesList.mp hm with ⟨c1, hc1, hmc1⟩
        exact hpos m (mem_nodesList.mpr ⟨c1, List.mem_cons_of_mem c0 hc1, hmc1⟩))
    rw [trimChildren_cons, if_pos hv, hc0, hcs]

/-- Trimming with floor zero is the identity on trees all of whose
non-root nodes have positive value. -/
theorem trim_zero_eq_self :
    ∀ t : FGNode, (∀ m ∈ nodesList t.children, 0 < m.value) → trimNodes t 0 = t := by
  intro t
  induction t using FGNode.strongInd with
  | h i c nm tt v ch ids ih =>
    intro hpos
    rw [trimNodes_def]
    simp only [FGNode.children_mk, FGNode.id_mk, FGNode.cluster_mk, FGNode.name_mk,
      FGNode.total_mk, FGNode.value_mk, FGNode.childrenIds_mk] at hpos ⊢
    rw [trim_zero_children ch (fun x hx hps => ih x hx hps) hpos]

@[simp] theorem bumpValue_id (n : FGNode) : (bumpValue n).id = n.id := by cases n; rfl

@[simp] theorem bumpValue_cluster (n : FGNode) : (bumpValue n).cluster = n.cluster := by
  cases n; rfl

@[simp] theorem bumpValue_name (n : FGNode) : (bumpValue n).name = n.name := by cases n; rfl

@[simp] theorem bumpValue_total (n : FGNode) : (bumpValue n).total = n.total := by cases n; rfl

@[simp] theorem bumpValue_value (n : FGNode) : (bumpValue n).value = n.value + 1 := by
  cases n; rfl

@[simp] theorem bumpValue_children (n : FGNode) : (bumpValue n).children = n.children := by
  cases n; rfl

@[simp] theorem bumpValue_childrenIds (n : FGNode) : (bumpValue n).childrenIds = n.childrenIds := by
  cases n; rfl

@[simp] theorem insertSegs_nil (total cnt : Nat) (node : FGNode) :
    insertSegs total cnt node [] = (node, cnt) := by
  simp [insertSegs]

theorem insertSegs_cons_found {ch : List FGNode} {s : String}
    (total cnt : Nat) (i : Nat) (cl nm : String) (t v : Nat) (ids : List Nat)
    (rest : List String) (h : containsName ch s = true) :
    insertSegs total cnt (.mk i cl nm t v ch ids) (s :: rest) =
      (FGNode.mk i cl nm t v (insertInto total cnt ch s rest).1 ids,
       (insertInto total cnt ch s rest).2) := by
  rcases hI : insertInto total cnt ch s rest with ⟨ch2, cnt2⟩
  simp [insertSegs, h, hI]

theorem insertSegs_cons_fresh {ch : List FGNode} {s : String}
    (total cnt : Nat) (i : Nat) (cl nm : String) (t v : Nat) (ids : List Nat)
    (rest : List String) (h : containsName ch s = false) :
    insertSegs total cnt (.mk i cl nm t v ch ids) (s :: rest) =
      (FGNode.mk i cl nm t v
         (ch ++ [(insertSegs total (cnt + 1) (.mk cnt cl s total 1 [] []) rest).1])
         (ids ++ [cnt]),
       (insertSegs total (cnt + 1) (.mk cnt cl s total 1 [] []) rest).2) := by
  rcases hI : insertSegs total (cnt + 1) (.mk cnt cl s total 1 [] []) rest with ⟨fresh, cnt2⟩
  simp [insertSegs, h, hI]

@[simp] theorem insertInto_nil (total cnt : Nat) (s : String) (rest : List String) :
    insertInto total cnt [] s rest = ([], cnt) := by
  simp [insertInto]

theorem insertInto_cons_eq {c : FGNode} {s : String} (total cnt : Nat)
    (cs : List FGNode) (rest : List String) (h : (c.name == s) = true) :
    insertInto total cnt (c :: cs) s rest =
      ((insertSegs total cnt (bumpValue c) rest).1 :: cs,
       (insertSegs total cnt (bumpValue c) rest).2) := by
  rcases hI : insertSegs total cnt (bumpValue c) rest with ⟨c2, cnt2⟩
  simp [insertInto, h, hI]

theorem insertInto_cons_ne {c : FGNode} {s : String} (total cnt : Nat)
    (cs : List FGNode) (rest : List String) (h : (c.name == s) = false) :
    insertInto total cnt (c :: cs) s rest =
      (c :: (insertInto total cnt cs s rest).1, (insertInto total cnt cs s rest).2) := by
  rcases hI : insertInto total cnt cs s rest with ⟨cs2, cnt2⟩
  simp [insertInto, h, hI]

/-- The fields of the node insertSegs is called on, other than children
and childrenIds, are never rewritten. -/
theorem insertSegs_root (total cnt : Nat) (node : FGNode) (segs : List String) :
    ((insertSegs total cnt node segs).1).id = node.id ∧
    ((insertSegs total cnt node segs).1).cluster = node.cluster ∧
    ((insertSegs total cnt node segs).1).name = node.name ∧
    ((insertSegs total cnt node segs).1).total = node.total ∧
    ((insertSegs total cnt node segs).1).value = node.value := by
  cases segs with
  | nil => simp
  | cons s rest =>
    cases node with
    | mk i cl nm t v ch ids =>
      by_cases h : containsName ch s
      · rw [insertSegs_cons_found total cnt i cl nm t v ids rest h]; simp
      · rw [insertSegs_cons_fresh total cnt i cl nm t v ids rest
          (Bool.not_eq_true _ ▸ h)]; simp

theorem nodesList_append (l1 l2 : List FGNode) :
    nodesList (l1 ++ l2) = nodesList l1 ++ nodesList l2 := by
  induction l1 with
  | nil => simp
  | cons n ns ih => simp [ih]

theorem idsOf_bump (c : FGNode) : idsOf (bumpValue c) = idsOf c := by
  cases c with
  | mk i cl nm t v ch ids =>
    rw [show bumpValue (FGNode.mk i cl nm t v ch ids) =
      FGNode.mk i cl nm t (v + 1) ch ids from rfl, idsOf_def, idsOf_def]
    simp

/-- The id counter never decreases through insertSegs or insertInto. -/
theorem insert_cnt_le (total : Nat) :
    ∀ segs : List String,
      (∀ cnt : Nat, ∀ node : FGNode, cnt ≤ (insertSegs total cnt node segs).2) ∧
      (∀ cnt : Nat, ∀ ch : List FGNode, ∀ s2 : String,
        cnt ≤ (insertInto total cnt ch s2 segs).2) := by
  intro segs
  induction segs with
  | nil =>
    constructor
    · intro cnt node; simp
    · intro cnt ch s2
      induction ch with
      | nil => simp
      | cons c cs ihl =>
        by_cases h : c.name == s2
        · rw [insertInto_cons_eq total cnt cs [] h]; simp
        · rw [insertInto_cons_ne total cnt cs [] (by simpa using h)]; exact ihl
  | cons s rest ih =>
    have hsegs : ∀ cnt : Nat, ∀ node : FGNode,
        cnt ≤ (insertSegs total cnt node (s :: rest)).2 := by
      intro cnt node
      cases node with
      | mk i cl nm t v ch ids =>
        by_cases h : containsName ch s
        · rw [insertSegs_cons_found total cnt i cl nm t v ids rest h]
          exact ih.2 cnt ch s
        · rw [insertSegs_cons_fresh total cnt i cl nm t v ids rest (by simpa using h)]
          exact le_trans (Nat.le_succ cnt) (ih.1 (cnt + 1) _)
    refine ⟨hsegs, ?_⟩
    intro cnt ch s2
    induction ch with
    | nil => simp
    | cons c cs ihl =>
      by_cases h : c.name == s2
      · rw [insertInto_cons_eq total cnt cs (s :: rest) h]
        exact hsegs cnt (bumpValue c)
      · rw [insertInto_cons_ne total cnt cs (s :: rest) (by simpa using h)]
        exact ihl

theorem idsList_append (l1 l2 : List FGNode) :
    (nodesList (l1 ++ l2)).map FGNode.id =
      (nodesList l1).map FGNode.id ++ (nodesList l2).map FGNode.id := by
  rw [nodesList_append, List.map_append]

theorem idsList_singleton (x : FGNode) :
    (nodesList [x]).map FGNode.id = idsOf x := by
  simp [idsOf]

theorem insert_fresh_into (total : Nat) (segs : List String)
    (hseg : ∀ cnt : Nat, ∀ node : FGNode,
      (∀ x ∈ idsOf node, x < cnt) → (idsOf node).Nodup →
      (∀ x ∈ idsOf (insertSegs total cnt node segs).1,
        x < (insertSegs total cnt node segs).2 ∧ (x ∈ idsOf node ∨ cnt ≤ x)) ∧
      (idsOf (insertSegs total cnt node segs).1).Nodup) :
    ∀ cnt : Nat, ∀ ch : List FGNode, ∀ s2 : String,
      (∀ x ∈ (nodesList ch).map FGNode.id, x < cnt) →
      ((nodesList ch).map FGNode.id).Nodup →
      (∀ x ∈ (nodesList (insertInto total cnt ch s2 segs).1).map FGNode.id,
        x < (insertInto total cnt ch s2 segs).2 ∧
        (x ∈ (nodesList ch).map FGNode.id ∨ cnt ≤ x)) ∧
      ((nodesList (insertInto total cnt ch s2 segs).1).map FGNode.id).Nodup := by
  intro cnt ch s2
  induction ch with
  | nil => intro _ _; simp
  | cons c cs ihl =>
    intro hbelow hnodup
    rw [idsList_cons] at hbelow hnodup
    have hbc : ∀ x ∈ idsOf c, x < cnt := fun x hx => hbelow x (List.mem_append_left _ hx)
    have hbcs : ∀ x ∈ (nodesList cs).map FGNode.id, x < cnt :=
      fun x hx => hbelow x (List.mem_append_right _ hx)
    have hnc : (idsOf c).Nodup := (List.nodup_append.mp hnodup).1
    have hncs : ((nodesList cs).map FGNode.id).Nodup := (List.nodup_append.mp hnodup).2.1
    by_cases h : c.name == s2
    · rw [insertInto_cons_eq total cnt cs segs h]
      have hkey := hseg cnt (bumpValue c) (by rw [idsOf_bump]; exact hbc)
        (by rw [idsOf_bump]; exact hnc)
      rw [idsOf_bump] at hkey
      constructor
      · intro x hx
        rw [idsList_cons] at hx
        rcases List.mem_append.mp hx with h1 | h2
        · refine ⟨(hkey.1 x h1).1, ?_⟩
          rcases (hkey.1 x h1).2 with ha | hb
          · exact Or.inl (by rw [idsList_cons]; exact List.mem_append_left _ ha)
          · exact Or.inr hb
        · have hle : cnt ≤ (insertSegs total cnt (bumpValue c) segs).2 :=
            (insert_cnt_le total segs).1 cnt _
          refine ⟨lt_of_lt_of_le (hbcs x h2) hle,
            Or.inl (by rw [idsList_cons]; exact List.mem_append_right _ h2)⟩
      · rw [idsList_cons]
        refine List.nodup_append.mpr ⟨hkey.2, hncs, ?_⟩
        intro a ha hacs
        rcases (hkey.1 a ha).2 with h1 | h2
        · exact (List.nodup_append.mp hnodup).2.2 h1 hacs
        · exact absurd (hbcs a hacs) (by omega)
    · rw [insertInto_cons_ne total cnt cs segs (by simpa using h)]
      obtain ⟨hin1, hin2⟩ := ihl hbcs hncs
      constructor
      · intro x hx
        rw [idsList_cons] at hx
        rcases List.mem_append.mp hx with h1 | h2
        · have hle : cnt ≤ (insertInto total cnt cs s2 segs).2 :=
            (insert_cnt_le total segs).2 cnt cs s2
          refine ⟨lt_of_lt_of_le (hbc x h1) hle,
            Or.inl (by rw [idsList_cons]; exact List.mem_append_left _ h1)⟩
        · refine ⟨(hin1 x h2).1, ?_⟩
          rcases (hin1 x h2).2 with ha | hb
          · exact Or.inl (by rw [idsList_cons]; exact List.mem_append_right _ ha)
          · exact Or.inr hb
      · rw [idsList_cons]
        refine List.nodup_append.mpr ⟨hnc, hin2, ?_⟩
        intro a ha hacs
        rcases (hin1 a hacs).2 with h1 | h2
        · exact (List.nodup_append.mp hnodup).2.2 ha h1
        · exact absurd (hbc a ha) (by omega)

/-- Freshness invariant of the tree builder: from a tree whose ids are
all below the counter and distinct, an insertion yields a tree whose ids
are below the returned counter, still distinct, and are either old ids
or fresh ids at or above the entry counter. -/
theorem insert_fresh (total : Nat) :
    ∀ segs : List String,
      (∀ cnt : Nat, ∀ node : FGNode,
        (∀ x ∈ idsOf node, x < cnt) → (idsOf node).Nodup →
        (∀ x ∈ idsOf (insertSegs total cnt node segs).1,
          x < (insertSegs total cnt node segs).2 ∧ (x ∈ idsOf node ∨ cnt ≤ x)) ∧
        (idsOf (insertSegs total cnt node segs).1).Nodup) ∧
      (∀ cnt : Nat, ∀ ch : List FGNode, ∀ s2 : String,
        (∀ x ∈ (nodesList ch).map FGNode.id, x < cnt) →
        ((nodesList ch).map FGNode.id).Nodup →
        (∀ x ∈ (nodesList (insertInto total cnt ch s2 segs).1).map FGNode.id,
          x < (insertInto total cnt ch s2 segs).2 ∧
          (x ∈ (nodesList ch).map FGNode.id ∨ cnt ≤ x)) ∧
        ((nodesList (insertInto total cnt ch s2 segs).1).map FGNode.id).Nodup) := by
  intro segs
  induction segs with
  | nil =>
    have hsegs : ∀ cnt : Nat, ∀ node : FGNode,
        (∀ x ∈ idsOf node, x < cnt) → (idsOf node).Nodup →
        (∀ x ∈ idsOf (insertSegs total cnt node []).1,
          x < (insertSegs total cnt node []).2 ∧ (x ∈ idsOf node ∨ cnt ≤ x)) ∧
        (idsOf (insertSegs total cnt node []).1).Nodup := by
      intro cnt node hbelow hnodup
      simp only [insertSegs_nil]
      exact ⟨fun x hx => ⟨hbelow x hx, Or.inl hx⟩, hnodup⟩
    exact ⟨hsegs, insert_fresh_into total [] hsegs⟩
  | cons s rest ih =>
    have hsegs : ∀ cnt : Nat, ∀ node : FGNode,
        (∀ x ∈ idsOf node, x < cnt) → (idsOf node).Nodup →
        (∀ x ∈ idsOf (insertSegs total cnt node (s :: rest)).1,
          x < (insertSegs total cnt node (s :: rest)).2 ∧ (x ∈ idsOf node ∨ cnt ≤ x)) ∧
        (idsOf (insertSegs total cnt node (s :: rest)).1).Nodup := by
      intro cnt node hbelow hnodup
      cases node with
      | mk i cl nm t v ch ids =>
        rw [idsOf_def] at hbelow hnodup
        simp only [FGNode.id_mk, FGNode.children_mk] at hbelow hnodup
        have hbi : i < cnt := hbelow i (List.mem_cons_self _ _)
        have hbch : ∀ x ∈ (nodesList ch).map FGNode.id, x < cnt :=
          fun x hx => hbelow x (List.mem_cons_of_mem _ hx)
        have hni : i ∉ (nodesList ch).map FGNode.id := (List.nodup_cons.mp hnodup).1
        have hnch : ((nodesList ch).map FGNode.id).Nodup := (List.nodup_cons.mp hnodup).2
        by_cases h : containsName ch s
        · rw [insertSegs_cons_found total cnt i cl nm t v ids rest h]
          obtain ⟨hto1, hto2⟩ := ih.2 cnt ch s hbch hnch
          have hle : cnt ≤ (insertInto total cnt ch s rest).2 :=
            (insert_cnt_le total rest).2 cnt ch s
          constructor
          · intro x hx
            rw [idsOf_def] at hx
            simp only [FGNode.id_mk, FGNode.children_mk] at hx
            rcases List.mem_cons.mp hx with h1 | h2
            · subst h1
              refine ⟨lt_of_lt_of_le hbi hle, Or.inl ?_⟩
              rw [idsOf_def]; exact List.mem_cons_self _ _
            · refine ⟨(hto1 x h2).1, ?_⟩
              rcases (hto1 x h2).2 with ha | hb
              · refine Or.inl ?_
                rw [idsOf_def]
                simp only [FGNode.id_mk, FGNode.children_mk]
                exact List.mem_cons_of_mem _ ha
              · exact Or.inr hb
          · rw [idsOf_def]
            simp only [FGNode.id_mk, FGNode.children_mk]
            refine List.nodup_cons.mpr ⟨?_, hto2⟩
            intro hmem
            rcases (hto1 i hmem).2 with h1 | h2
            · exact hni h1
            · omega
        · rw [insertSegs_cons_fresh total cnt i cl nm t v ids rest (by simpa using h)]
          have hbase : ∀ x ∈ idsOf (FGNode.mk cnt cl s total 1 [] []), x < cnt + 1 := by
            intro x hx
            rw [idsOf_def] at hx
            simp only [FGNode.id_mk, FGNode.children_mk, nodesList_nil, List.map_nil] at hx
            rcases List.mem_cons.mp hx with h1 | h2
            · omega
            · exact absurd h2 (List.not_mem_nil x)
          have hnbase : (idsOf (FGNode.mk cnt cl s total 1 [] [])).Nodup := by
            rw [idsOf_def]; simp
          obtain ⟨hk1, hk2⟩ := ih.1 (cnt + 1) (FGNode.mk cnt cl s total 1 [] []) hbase hnbase
          have hle : cnt + 1 ≤ (insertSegs total (cnt + 1) (FGNode.mk cnt cl s total 1 [] []) rest).2 :=
            (insert_cnt_le total rest).1 (cnt + 1) _
          have hfresh_ge : ∀ x ∈ idsOf (insertSegs total (cnt + 1)
              (FGNode.mk cnt cl s total 1 [] []) rest).1, cnt ≤ x := by
            intro x hx
            rcases (hk1 x hx).2 with h1 | h2
            · rw [idsOf_def] at h1
              simp only [FGNode.id_mk, FGNode.children_mk, nodesList_nil, List.map_nil] at h1
              rcases List.mem_cons.mp h1 with ha | hb
              · omega
              · exact absurd hb (List.not_mem_nil x)
            · omega
          constructor
          · intro x hx
            rw [idsOf_def] at hx
            simp only [FGNode.id_mk, FGNode.children_mk, idsList_append,
              idsList_singleton] at hx
            rcases List.mem_cons.mp hx with h1 | h2
            · subst h1
              refine ⟨by omega, Or.inl ?_⟩
              rw [idsOf_def]; exact List.mem_cons_self _ _
            · rcases List.mem_append.mp h2 with ha | hb
              · refine ⟨by have := hbch x ha; omega, Or.inl ?_⟩
                rw [idsOf_def]
                simp only [FGNode.id_mk, FGNode.children_mk]
                exact List.mem_cons_of_mem _ ha
              · exact ⟨(hk1 x hb).1, Or.inr (hfresh_ge x hb)⟩
          · rw [idsOf_def]
            simp only [FGNode.id_mk, FGNode.children_mk, idsList_append, idsList_singleton]
            refine List.nodup_cons.mpr ⟨?_, ?_⟩
            · intro hmem
              rcases List.mem_append.mp hmem with ha | hb
              · exact hni ha
              · exact absurd (hfresh_ge i hb) (by omega)
            · refine List.nodup_append.mpr ⟨hnch, hk2, ?_⟩
              intro a ha hb
              exact absurd (hfresh_ge a hb) (by have := hbch a ha; omega)
    exact ⟨hsegs, insert_fresh_into total (s :: rest) hsegs⟩

theorem insert_par_into (total : Nat) (segs : List String)
    (hseg : ∀ cnt : Nat, ∀ node : FGNode,
      (∀ m ∈ node.nodes, m.childrenIds = m.children.map FGNode.id) →
      ∀ m ∈ (insertSegs total cnt node segs).1.nodes,
        m.childrenIds = m.children.map FGNode.id) :
    ∀ cnt : Nat, ∀ ch : List FGNode, ∀ s2 : String,
      (∀ m ∈ nodesList ch, m.childrenIds = m.children.map FGNode.id) →
      (∀ m ∈ nodesList (insertInto total cnt ch s2 segs).1,
        m.childrenIds = m.children.map FGNode.id) ∧
      (insertInto total cnt ch s2 segs).1.map FGNode.id = ch.map FGNode.id := by
  intro cnt ch s2
  induction ch with
  | nil => intro _; simp
  | cons c cs ihl =>
    intro hpar
    have hc : ∀ m ∈ c.nodes, m.childrenIds = m.children.map FGNode.id :=
      fun m hm => hpar m (mem_nodesList.mpr ⟨c, List.mem_cons_self c cs, hm⟩)
    have hcs : ∀ m ∈ nodesList cs, m.childrenIds = m.children.map FGNode.id := by
      intro m hm
      rcases mem_nodesList.mp hm with ⟨c0, hc0, hmc0⟩
      exact hpar m (mem_nodesList.mpr ⟨c0, List.mem_cons_of_mem c hc0, hmc0⟩)
    by_cases h : c.name == s2
    · rw [insertInto_cons_eq total cnt cs segs h]
      have hbump : ∀ m ∈ (bumpValue c).nodes, m.childrenIds = m.children.map FGNode.id := by
        intro m hm
        rw [FGNode.nodes_def, bumpValue_children] at hm
        rcases List.mem_cons.mp hm with h1 | h2
        · subst h1
          simp only [bumpValue_childrenIds, bumpValue_children]
          exact hc c (self_mem_nodes c)
        · exact hc m (by rw [FGNode.nodes_def]; exact List.mem_cons_of_mem _ h2)
      constructor
      · intro m hm
        rw [nodesList_cons] at hm
        rcases List.mem_append.mp hm with h1 | h2
        · exact hseg cnt (bumpValue c) hbump m h1
        · exact hcs m h2
      · simp only [List.map_cons]
        congr 1
        rw [(insertSegs_root total cnt (bumpValue c) segs).1, bumpValue_id]
    · rw [insertInto_cons_ne total cnt cs segs (by simpa using h)]
      obtain ⟨hin1, hin2⟩ := ihl hcs
      constructor
      · intro m hm
        rw [nodesList_cons] at hm
        rcases List.mem_append.mp hm with h1 | h2
        · exact hc m h1
        · exact hin1 m h2
      · simp only [List.map_cons, hin2]

/-- Parallelism invariant of the tree builder: if childrenIds mirrors
children.map id at every node, insertion preserves this (a fresh child's
id is appended to the parent's childrenIds exactly as the fresh node is
appended to its children). -/
theorem insert_par (total : Nat) :
    ∀ segs : List String,
      ∀ cnt : Nat, ∀ node : FGNode,
        (∀ m ∈ node.nodes, m.childrenIds = m.children.map FGNode.id) →
        ∀ m ∈ (insertSegs total cnt node segs).1.nodes,
          m.childrenIds = m.children.map FGNode.id := by
  intro segs
  induction segs with
  | nil => intro cnt node hpar; simp only [insertSegs_nil]; exact hpar
  | cons s rest ih =>
    intro cnt node hpar
    cases node with
    | mk i cl nm t v ch ids =>
      have hroot : ids = ch.map FGNode.id := by
        have := hpar (FGNode.mk i cl nm t v ch ids) (self_mem_nodes _)
        simpa using this
      have hch : ∀ m ∈ nodesList ch, m.childrenIds = m.children.map FGNode.id := by
        intro m hm
        refine hpar m ?_
        rw [FGNode.nodes_def]
        exact List.mem_cons_of_mem _ (by simpa using hm)
      by_cases h : containsName ch s
      · rw [insertSegs_cons_found total cnt i cl nm t v ids rest h]
        obtain ⟨hin1, hin2⟩ := insert_par_into total rest ih cnt ch s hch
        intro m hm
        rw [FGNode.nodes_def] at hm
        simp only [FGNode.children_mk] at hm
        rcases List.mem_cons.mp hm with h1 | h2
        · subst h1
          simp only [FGNode.childrenIds_mk, FGNode.children_mk]
          rw [hin2, hroot]
        · exact hin1 m h2
      · rw [insertSegs_cons_fresh total cnt i cl nm t v ids rest (by simpa using h)]
        have hbase : ∀ m ∈ (FGNode.mk cnt cl s total 1 [] []).nodes,
            m.childrenIds = m.children.map FGNode.id := by
          intro m hm
          rw [FGNode.nodes_def] at hm
          simp only [FGNode.children_mk, nodesList_nil] at hm
          rcases List.mem_cons.mp hm with h1 | h2
          · subst h1; simp
          · exact absurd h2 (List.not_mem_nil m)
        have hkey := ih (cnt + 1) (FGNode.mk cnt cl s total 1 [] []) hbase
        have hfid : (insertSegs total (cnt + 1) (FGNode.mk cnt cl s total 1 [] []) rest).1.id
            = cnt := by
          rw [(insertSegs_root total (cnt + 1) _ rest).1]; rfl
        intro m hm
        rw [FGNode.nodes_def] at hm
        simp only [FGNode.children_mk] at hm
        rcases List.mem_cons.mp hm with h1 | h2
        · subst h1
          simp only [FGNode.childrenIds_mk, FGNode.children_mk, List.map_append,
            List.map_cons, List.map_nil]
          rw [hroot, hfid]
        · rw [nodesList_append] at h2
          rcases List.mem_append.mp h2 with ha | hb
          · exact hch m ha
          · have : m ∈ (insertSegs total (cnt + 1)
                (FGNode.mk cnt cl s total 1 [] []) rest).1.nodes := by
              simpa using hb
            exact hkey m this

theorem insert_total_into (T : Nat) (segs : List String)
    (hseg : ∀ cnt : Nat, ∀ node : FGNode, (∀ m ∈ node.nodes, m.total = T) →
      ∀ m ∈ (insertSegs T cnt node segs).1.nodes, m.total = T) :
    ∀ cnt : Nat, ∀ ch : List FGNode, ∀ s2 : String,
      (∀ m ∈ nodesList ch, m.total = T) →
      ∀ m ∈ nodesList (insertInto T cnt ch s2 segs).1, m.total = T := by
  intro cnt ch s2
  induction ch with
  | nil => intro _ m hm; simp at hm
  | cons c cs ihl =>
    intro h
    have hc : ∀ m ∈ c.nodes, m.total = T :=
      fun m hm => h m (mem_nodesList.mpr ⟨c, List.mem_cons_self c cs, hm⟩)
    have hcs : ∀ m ∈ nodesList cs, m.total = T := by
      intro m hm
      rcases mem_nodesList.mp hm with ⟨c0, hc0, hmc0⟩
      exact h m (mem_nodesList.mpr ⟨c0, List.mem_cons_of_mem c hc0, hmc0⟩)
    by_cases hn : c.name == s2
    · rw [insertInto_cons_eq T cnt cs segs hn]
      intro m hm
      rw [nodesList_cons] at hm
      rcases List.mem_append.mp hm with h1 | h2
      · refine hseg cnt (bumpValue c) ?_ m h1
        intro m2 hm2
        rw [FGNode.nodes_def, bumpValue_children] at hm2
        rcases List.mem_cons.mp hm2 with ha | hb
        · subst ha; rw [bumpValue_total]; exact hc c (self_mem_nodes c)
        · exact hc m2 (by rw [FGNode.nodes_def]; exact List.mem_cons_of_mem _ hb)
      · exact hcs m h2
    · rw [insertInto_cons_ne T cnt cs segs (by simpa using hn)]
      intro m hm
      rw [nodesList_cons] at hm
      rcases List.mem_append.mp hm with h1 | h2
      · exact hc m h1
      · exact ihl hcs m h2

/-- Total invariant of the tree builder: when every node carries total T
and T is the total passed to insertion, every node of the result still
carries total T (fresh nodes are created with total T). -/
theorem insert_total (T : Nat) :
    ∀ segs : List String, ∀ cnt : Nat, ∀ node : FGNode,
      (∀ m ∈ node.nodes, m.total = T) →
      ∀ m ∈ (insertSegs T cnt node segs).1.nodes, m.total = T := by
  intro segs
  induction segs with
  | nil => intro cnt node h; simp only [insertSegs_nil]; exact h
  | cons s rest ih =>
    intro cnt node h
    cases node with
    | mk i cl nm t v ch ids =>
      have hroot : t = T := by
        have := h (FGNode.mk i cl nm t v ch ids) (self_mem_nodes _)
        simpa using this
      have hch : ∀ m ∈ nodesList ch, m.total = T := by
        intro m hm
        exact h m (by rw [FGNode.nodes_def]; exact List.mem_cons_of_mem _ (by simpa using hm))
      by_cases hc : containsName ch s
      · rw [insertSegs_cons_found T cnt i cl nm t v ids rest hc]
        intro m hm
        rw [FGNode.nodes_def] at hm
        simp only [FGNode.children_mk] at hm
        rcases List.mem_cons.mp hm with h1 | h2
        · subst h1; simpa using hroot
        · exact insert_total_into T rest ih cnt ch s hch m h2
      · rw [insertSegs_cons_fresh T cnt i cl nm t v ids rest (by simpa using hc)]
        have hbase : ∀ m ∈ (FGNode.mk cnt cl s T 1 [] []).nodes, m.total = T := by
          intro m hm
          rw [FGNode.nodes_def] at hm
          simp only [FGNode.children_mk, nodesList_nil] at hm
          rcases List.mem_cons.mp hm with h1 | h2
          · subst h1; simp
          · exact absurd h2 (List.not_mem_nil m)
        intro m hm
        rw [FGNode.nodes_def] at hm
        simp only [FGNode.children_mk] at hm
        rcases List.mem_cons.mp hm with h1 | h2
        · subst h1; simpa using hroot
        · rw [nodesList_append] at h2
          rcases List.mem_append.mp h2 with ha | hb
          · exact hch m ha
          · exact ih (cnt + 1) (FGNode.mk cnt cl s T 1 [] []) hbase m (by simpa using hb)

theorem insert_vbound_into (total K : Nat) (segs : List String)
    (hseg : ∀ cnt : Nat, ∀ node : FGNode,
      (∀ m ∈ nodesList node.children, m.value ≤ K) →
      ∀ m ∈ nodesList (insertSegs total cnt node segs).1.children, m.value ≤ K + 1) :
    ∀ cnt : Nat, ∀ ch : List FGNode, ∀ s2 : String,
      (∀ m ∈ nodesList ch, m.value ≤ K) →
      ∀ m ∈ nodesList (insertInto total cnt ch s2 segs).1, m.value ≤ K + 1 := by
  intro cnt ch s2
  induction ch with
  | nil => intro _ m hm; simp at hm
  | cons c cs ihl =>
    intro h
    have hcv : c.value ≤ K :=
      h c (mem_nodesList.mpr ⟨c, List.mem_cons_self c cs, self_mem_nodes c⟩)
    have hcdesc : ∀ m ∈ nodesList c.children, m.value ≤ K := by
      intro m hm
      exact h m (mem_nodesList.mpr ⟨c, List.mem_cons_self c cs,
        by rw [FGNode.nodes_def]; exact List.mem_cons_of_mem _ hm⟩)
    have hcs : ∀ m ∈ nodesList cs, m.value ≤ K := by
      intro m hm
      rcases mem_nodesList.mp hm with ⟨c0, hc0, hmc0⟩
      exact h m (mem_nodesList.mpr ⟨c0, List.mem_cons_of_mem c hc0, hmc0⟩)
    by_cases hn : c.name == s2
    · rw [insertInto_cons_eq total cnt cs segs hn]
      intro m hm
      rw [nodesList_cons] at hm
      rcases List.mem_append.mp hm with h1 | h2
      · rw [FGNode.nodes_def] at h1
        rcases List.mem_cons.mp h1 with ha | hb
        · subst ha
          rw [(insertSegs_root total cnt (bumpValue c) segs).2.2.2.2, bumpValue_value]
          omega
        · refine hseg cnt (bumpValue c) ?_ m hb
          simpa using hcdesc
      · have := hcs m h2; omega
    · rw [insertInto_cons_ne total cnt cs segs (by simpa using hn)]
      intro m hm
      rw [nodesList_cons] at hm
      rcases List.mem_append.mp hm with h1 | h2
      · rw [FGNode.nodes_def] at h1
        rcases List.mem_cons.mp h1 with ha | hb
        · subst ha; omega
        · have := hcdesc m hb; omega
      · exact ihl hcs m h2

/-- Value-bound invariant of the tree builder: if every non-root node has
value at most K, then after inserting one metric every non-root node has
value at most K + 1 (each node on the inserted path is bumped once, fresh
nodes start at value 1). -/
theorem insert_vbound (total K : Nat) :
    ∀ segs : List String, ∀ cnt : Nat, ∀ node : FGNode,
      (∀ m ∈ nodesList node.children, m.value ≤ K) →
      ∀ m ∈ nodesList (insertSegs total cnt node segs).1.children, m.value ≤ K + 1 := by
  intro segs
  induction segs with
  | nil =>
    intro cnt node h
    simp only [insertSegs_nil]
    intro m hm
    have := h m hm; omega
  | cons s rest ih =>
    intro cnt node h
    cases node with
    | mk i cl nm t v ch ids =>
      simp only [FGNode.children_mk] at h
      by_cases hc : containsName ch s
      · rw [insertSegs_cons_found total cnt i cl nm t v ids rest hc]
        simp only [FGNode.children_mk]
        exact insert_vbound_into total K rest ih cnt ch s h
      · rw [insertSegs_cons_fresh total cnt i cl nm t v ids rest (by simpa using hc)]
        simp only [FGNode.children_mk]
        intro m hm
        rw [nodesList_append] at hm
        rcases List.mem_append.mp hm with h1 | h2
        · have := h m h1; omega
        · rw [show nodesList [(insertSegs total (cnt + 1)
              (FGNode.mk cnt cl s total 1 [] []) rest).1] =
            (insertSegs total (cnt + 1) (FGNode.mk cnt cl s total 1 [] []) rest).1.nodes
              ++ [] from rfl, List.append_nil, FGNode.nodes_def] at h2
          rcases List.mem_cons.mp h2 with ha | hb
          · subst ha
            rw [(insertSegs_root total (cnt + 1) _ rest).2.2.2.2]
            simp only [FGNode.value_mk]
            omega
          · refine ih (cnt + 1) (FGNode.mk cnt cl s total 1 [] []) ?_ m hb
            intro m2 hm2
            simp at hm2

theorem insert_pos_into (total : Nat) (segs : List String)
    (hseg : ∀ cnt : Nat, ∀ node : FGNode,
      (∀ m ∈ nodesList node.children, 0 < m.value) →
      ∀ m ∈ nodesList (insertSegs total cnt node segs).1.children, 0 < m.value) :
    ∀ cnt : Nat, ∀ ch : List FGNode, ∀ s2 : String,
      (∀ m ∈ nodesList ch, 0 < m.value) →
      ∀ m ∈ nodesList (insertInto total cnt ch s2 segs).1, 0 < m.value := by
  intro cnt ch s2
  induction ch with
  | nil => intro _ m hm; simp at hm
  | cons c cs ihl =>
    intro h
    have hcdesc : ∀ m ∈ nodesList c.children, 0 < m.value := by
      intro m hm
      exact h m (mem_nodesList.mpr ⟨c, List.mem_cons_self c cs,
        by rw [FGNode.nodes_def]; exact List.mem_cons_of_mem _ hm⟩)
    have hcs : ∀ m ∈ nodesList cs, 0 < m.value := by
      intro m hm
      rcases mem_nodesList.mp hm with ⟨c0, hc0, hmc0⟩
      exact h m (mem_nodesList.mpr ⟨c0, List.mem_cons_of_mem c hc0, hmc0⟩)
    by_cases hn : c.name == s2
    · rw [insertInto_cons_eq total cnt cs segs hn]
      intro m hm
      rw [nodesList_cons] at hm
      rcases List.mem_append.mp hm with h1 | h2
      · rw [FGNode.nodes_def] at h1
        rcases List.mem_cons.mp h1 with ha | hb
        · subst ha
          rw [(insertSegs_root total cnt (bumpValue c) segs).2.2.2.2, bumpValue_value]
          omega
        · refine hseg cnt (bumpValue c) ?_ m hb
          simpa using hcdesc
      · exact hcs m h2
    · rw [insertInto_cons_ne total cnt cs segs (by simpa using hn)]
      intro m hm
      rw [nodesList_cons] at hm
      rcases List.mem_append.mp hm with h1 | h2
      · rw [FGNode.nodes_def] at h1
        rcases List.mem_cons.mp h1 with ha | hb
        · rw [ha]
          exact h c (mem_nodesList.mpr ⟨c, List.mem_cons_self c cs, self_mem_nodes c⟩)
        · have := hcdesc m hb; omega
      · exact ihl hcs m h2

/-- Positivity invariant of the tree builder: non-root nodes always have
positive value (fresh nodes start at 1, bumping only increases). -/
theorem insert_pos (total : Nat) :
    ∀ segs : List String, ∀ cnt : Nat, ∀ node : FGNode,
      (∀ m ∈ nodesList node.children, 0 < m.value) →
      ∀ m ∈ nodesList (insertSegs total cnt node segs).1.children, 0 < m.value := by
  intro segs
  induction segs with
  | nil =>
    intro cnt node h
    simp only [insertSegs_nil]
    exact h
  | cons s rest ih =>
    intro cnt node h
    cases node with
    | mk i cl nm t v ch ids =>
      simp only [FGNode.children_mk] at h
      by_cases hc : containsName ch s
      · rw [insertSegs_cons_found total cnt i cl nm t v ids rest hc]
        simp only [FGNode.children_mk]
        exact insert_pos_into total rest ih cnt ch s h
      · rw [insertSegs_cons_fresh total cnt i cl nm t v ids rest (by simpa using hc)]
        simp only [FGNode.children_mk]
        intro m hm
        rw [nodesList_append] at hm
        rcases List.mem_append.mp hm with h1 | h2
        · exact h m h1
        · rw [show nodesList [(insertSegs total (cnt + 1)
              (FGNode.mk cnt cl s total 1 [] []) rest).1] =
            (insertSegs total (cnt + 1) (FGNode.mk cnt cl s total 1 [] []) rest).1.nodes
              ++ [] from rfl, List.append_nil, FGNode.nodes_def] at h2
          rcases List.mem_cons.mp h2 with ha | hb
          · subst ha
            rw [(insertSegs_root total (cnt + 1) _ rest).2.2.2.2]
            simp
          · refine ih (cnt + 1) (FGNode.mk cnt cl s total 1 [] []) ?_ m hb
            intro m2 hm2
            simp at hm2

@[simp] theorem constructTreeAux_nil (T : Nat) (node : FGNode) (cnt : Nat) :
    constructTreeAux T node cnt [] = (node, cnt) := rfl

theorem constructTreeAux_cons (T : Nat) (node : FGNode) (cnt : Nat)
    (m : String) (ms : List String) :
    constructTreeAux T node cnt (m :: ms) =
      constructTreeAux T (insertSegs T cnt node (segsOf m)).1
        (insertSegs T cnt node (segsOf m)).2 ms := by
  rcases h : insertSegs T cnt node (segsOf m) with ⟨node2, cnt2⟩
  simp [constructTreeAux, h]

theorem fold_root (T : Nat) :
    ∀ ms : List String, ∀ node : FGNode, ∀ cnt : Nat,
      ((constructTreeAux T node cnt ms).1.id = node.id ∧
       (constructTreeAux T node cnt ms).1.cluster = node.cluster ∧
       (constructTreeAux T node cnt ms).1.name = node.name ∧
       (constructTreeAux T node cnt ms).1.total = node.total ∧
       (constructTreeAux T node cnt ms).1.value = node.value) := by
  intro ms
  induction ms with
  | nil => intro node cnt; simp
  | cons m ms ih =>
    intro node cnt
    rw [constructTreeAux_cons]
    obtain ⟨h1, h2, h3, h4, h5⟩ := ih (insertSegs T cnt node (segsOf m)).1
      (insertSegs T cnt node (segsOf m)).2
    obtain ⟨g1, g2, g3, g4, g5⟩ := insertSegs_root T cnt node (segsOf m)
    exact ⟨h1.trans g1, h2.trans g2, h3.trans g3, h4.trans g4, h5.trans g5⟩

theorem fold_nodup (T : Nat) :
    ∀ ms : List String, ∀ node : FGNode, ∀ cnt : Nat,
      (∀ x ∈ idsOf node, x < cnt) → (idsOf node).Nodup →
      (∀ x ∈ idsOf (constructTreeAux T node cnt ms).1,
        x < (constructTreeAux T node cnt ms).2) ∧
      (idsOf (constructTreeAux T node cnt ms).1).Nodup := by
  intro ms
  induction ms with
  | nil => intro node cnt hb hn; simpa using ⟨hb, hn⟩
  | cons m ms ih =>
    intro node cnt hb hn
    rw [constructTreeAux_cons]
    obtain ⟨hk1, hk2⟩ := (insert_fresh T (segsOf m)).1 cnt node hb hn
    exact ih (insertSegs T cnt node (segsOf m)).1 (insertSegs T cnt node (segsOf m)).2
      (fun x hx => (hk1 x hx).1) hk2

theorem fold_par (T : Nat) :
    ∀ ms : List String, ∀ node : FGNode, ∀ cnt : Nat,
      (∀ m2 ∈ node.nodes, m2.childrenIds = m2.children.map FGNode.id) →
      ∀ m2 ∈ (constructTreeAux T node cnt ms).1.nodes,
        m2.childrenIds = m2.children.map FGNode.id := by
  intro ms
  induction ms with
  | nil => intro node cnt hp; simpa using hp
  | cons m ms ih =>
    intro node cnt hp
    rw [constructTreeAux_cons]
    exact ih _ _ (insert_par T (segsOf m) cnt node hp)

theorem fold_total (T : Nat) :
    ∀ ms : List String, ∀ node : FGNode, ∀ cnt : Nat,
      (∀ m2 ∈ node.nodes, m2.total = T) →
      ∀ m2 ∈ (constructTreeAux T node cnt ms).1.nodes, m2.total = T := by
  intro ms
  induction ms with
  | nil => intro node cnt hp; simpa using hp
  | cons m ms ih =>
    intro node cnt hp
    rw [constructTreeAux_cons]
    exact ih _ _ (insert_total T (segsOf m) cnt node hp)

theorem fold_pos (T : Nat) :
    ∀ ms : List String, ∀ node : FGNode, ∀ cnt : Nat,
      (∀ m2 ∈ nodesList node.children, 0 < m2.value) →
      ∀ m2 ∈ nodesList (constructTreeAux T node cnt ms).1.children, 0 < m2.value := by
  intro ms
  induction ms with
  | nil => intro node cnt hp; simpa using hp
  | cons m ms ih =>
    intro node cnt hp
    rw [constructTreeAux_cons]
    exact ih _ _ (insert_pos T (segsOf m) cnt node hp)

theorem fold_vbound (T : Nat) :
    ∀ ms : List String, ∀ node : FGNode, ∀ cnt K : Nat,
      (∀ m2 ∈ nodesList node.children, m2.value ≤ K) →
      ∀ m2 ∈ nodesList (constructTreeAux T node cnt ms).1.children,
        m2.value ≤ K + ms.length := by
  intro ms
  induction ms with
  | nil => intro node cnt K hp; simpa using hp
  | cons m ms ih =>
    intro node cnt K hp
    rw [constructTreeAux_cons]
    intro m2 hm2
    have := ih (insertSegs T cnt node (segsOf m)).1 (insertSegs T cnt node (segsOf m)).2
      (K + 1) (insert_vbound T K (segsOf m) cnt node hp) m2 hm2
    simpa [Nat.add_assoc, Nat.add_comm 1 ms.length] using this

theorem buildTree_root (clusterName : String) (metrics : List String) :
    (buildTree clusterName metrics).id = rootElementId ∧
    (buildTree clusterName metrics).cluster = clusterName ∧
    (buildTree clusterName metrics).name = "all" ∧
    (buildTree clusterName metrics).total = metrics.length ∧
    (buildTree clusterName metrics).value = metrics.length := by
  have := fold_root metrics.length metrics (parseTreeRoot clusterName metrics)
    (rootElementId + 1)
  simpa [buildTree, constructTree, parseTreeRoot] using this

theorem buildTree_nodup (clusterName : String) (metrics : List String) :
    (idsOf (buildTree clusterName metrics)).Nodup := by
  refine (fold_nodup metrics.length metrics (parseTreeRoot clusterName metrics)
    (rootElementId + 1) ?_ ?_).2
  · intro x hx
    rw [parseTreeRoot, idsOf_def] at hx
    simp only [FGNode.id_mk, FGNode.children_mk, nodesList_nil, List.map_nil] at hx
    rcases List.mem_cons.mp hx with h1 | h2
    · subst h1; omega
    · exact absurd h2 (List.not_mem_nil x)
  · rw [parseTreeRoot, idsOf_def]; simp

theorem buildTree_par (clusterName : String) (metrics : List String) :
    ∀ m ∈ (buildTree clusterName metrics).nodes,
      m.childrenIds = m.children.map FGNode.id := by
  refine fold_par metrics.length metrics (parseTreeRoot clusterName metrics)
    (rootElementId + 1) ?_
  intro m hm
  rw [parseTreeRoot, FGNode.nodes_def] at hm
  simp only [FGNode.children_mk, nodesList_nil] at hm
  rcases List.mem_cons.mp hm with h1 | h2
  · subst h1; simp
  · exact absurd h2 (List.not_mem_nil m)

theorem buildTree_total (clusterName : String) (metrics : List String) :
    ∀ m ∈ (buildTree clusterName metrics).nodes, m.total = metrics.length := by
  refine fold_total metrics.length metrics (parseTreeRoot clusterName metrics)
    (rootElementId + 1) ?_
  intro m hm
  rw [parseTreeRoot, FGNode.nodes_def] at hm
  simp only [FGNode.children_mk, nodesList_nil] at hm
  rcases List.mem_cons.mp hm with h1 | h2
  · subst h1; simp
  · exact absurd h2 (List.not_mem_nil m)

theorem buildTree_pos (clusterName : String) (metrics : List String) :
    ∀ m ∈ nodesList (buildTree clusterName metrics).children, 0 < m.value := by
  refine fold_pos metrics.length metrics (parseTreeRoot clusterName metrics)
    (rootElementId + 1) ?_
  intro m hm
  rw [parseTreeRoot] at hm
  simp at hm

theorem buildTree_vbound (clusterName : String) (metrics : List String) :
    ∀ m ∈ nodesList (buildTree clusterName metrics).children,
      m.value ≤ metrics.length := by
  intro m hm
  have := fold_vbound metrics.length metrics (parseTreeRoot clusterName metrics)
    (rootElementId + 1) 0 ?_ m hm
  · simpa using this
  · intro m2 hm2
    rw [parseTreeRoot] at hm2
    simp at hm2

/-- General form of the read-path equivalence: reconstructing from the
keyed full flattening of a well-formed tree whose root has the reserved
id yields exactly the trimming of that tree with the same floor. -/
theorem reconstruct_keyed_eq_trim (t : FGNode) (ts : Int) (f fuel : Nat)
    (hnd : (idsOf t).Nodup)
    (hpar : ∀ m ∈ t.nodes, m.childrenIds = m.children.map FGNode.id)
    (hid : t.id = rootElementId)
    (hfuel : t.height ≤ fuel) :
    reconstructTree (keyed (convertToClickhouse t ts))
        (rebuiltRoot (keyed (convertToClickhouse t ts))) f fuel = trimNodes t f := by
  have hlook : ∀ m ∈ t.nodes,
      keyed (convertToClickhouse t ts) m.id = some (record m ts) := keyed_convert ts hnd
  have hrootrow : keyed (convertToClickhouse t ts) rootElementId = some (record t ts) := by
    rw [← hid]; exact hlook t (self_mem_nodes t)
  have hrebuilt : rebuiltRoot (keyed (convertToClickhouse t ts)) =
      FGNode.mk t.id t.cluster t.name t.total t.value [] t.childrenIds := by
    rw [rebuiltRoot, hrootrow]
    simp
  rw [hrebuilt, reconstructTree]
  simp only [FGNode.id_mk, FGNode.cluster_mk, FGNode.name_mk, FGNode.total_mk,
    FGNode.value_mk, FGNode.children_mk, FGNode.childrenIds_mk, List.nil_append]
  have hparc : ∀ m ∈ nodesList t.children, m.childrenIds = m.children.map FGNode.id := by
    intro m hm
    exact hpar m (by rw [FGNode.nodes_def]; exact List.mem_cons_of_mem _ hm)
  have hlookc : ∀ m ∈ nodesList t.children,
      keyed (convertToClickhouse t ts) m.id = some (record m ts) := by
    intro m hm
    exact hlook m (by rw [FGNode.nodes_def]; exact List.mem_cons_of_mem _ hm)
  have hhl : heightList t.children ≤ fuel := by
    rw [FGNode.height_def] at hfuel; omega
  have hself : t.childrenIds = t.children.map FGNode.id := hpar t (self_mem_nodes t)
  rw [hself, reconstructChildren_eq_trim (keyed (convertToClickhouse t ts)) ts f fuel
    t.children hlookc hparc hhl, trimNodes_def, ← hself]

/-- C9: after building (root value and total both the metric count),
every node of the tree satisfies value at most total, and total is the
same metric count at every node of the snapshot. -/
theorem build_value_le_total (clusterName : String) (metrics : List String) :
    (buildTree clusterName metrics).value = metrics.length ∧
    (buildTree clusterName metrics).total = metrics.length ∧
    ∀ m ∈ (buildTree clusterName metrics).nodes,
      m.value ≤ m.total ∧ m.total = metrics.length := by
  obtain ⟨_, _, _, h4, h5⟩ := buildTree_root clusterName metrics
  refine ⟨h5, h4, ?_⟩
  intro m hm
  have htot : m.total = metrics.length := buildTree_total clusterName metrics m hm
  refine ⟨?_, htot⟩
  rw [FGNode.nodes_def] at hm
  rcases List.mem_cons.mp hm with h1 | h2
  · have hv : m.value = metrics.length := by rw [h1]; exact h5
    omega
  · have := buildTree_vbound clusterName metrics m h2
    omega

/-- Witness for C9 at a concrete metric list, instantiated at the root. -/
theorem build_value_le_total_witness :
    buildTree "c" ["a.b"] ∈ (buildTree "c" ["a.b"]).nodes ∧
    ((buildTree "c" ["a.b"]).value ≤ (buildTree "c" ["a.b"]).total ∧
     (buildTree "c" ["a.b"]).total = (["a.b"] : List String).length) :=
  ⟨self_mem_nodes _, (build_value_le_total "c" ["a.b"]).2.2 _ (self_mem_nodes _)⟩

@[simp] theorem findPath_nil (n : FGNode) : findPath n [] = some n := by
  simp [findPath]

theorem findPath_cons (n : FGNode) (q : String) (p2 : List String) :
    findPath n (q :: p2) = findPathL n.children q p2 := by
  simp [findPath]

@[simp] theorem findPathL_nil (q : String) (p2 : List String) :
    findPathL [] q p2 = none := by
  simp [findPathL]

theorem findPathL_cons (c : FGNode) (cs : List FGNode) (q : String) (p2 : List String) :
    findPathL (c :: cs) q p2 =
      if c.name == q then findPath c p2 else findPathL cs q p2 := by
  simp [findPathL]

@[simp] theorem pathValues_nil (n : FGNode) : pathValues n [] = some (n.value, n.total) := by
  simp [pathValues]

theorem pathValues_cons (n : FGNode) (q : String) (p2 : List String) :
    pathValues n (q :: p2) = pathValuesL n.children q p2 := by
  rw [pathValues, pathValuesL, findPath_cons]

@[simp] theorem pathValuesL_nil (q : String) (p2 : List String) :
    pathValuesL [] q p2 = none := by
  simp [pathValuesL]

theorem pathValuesL_cons (c : FGNode) (cs : List FGNode) (q : String) (p2 : List String) :
    pathValuesL (c :: cs) q p2 =
      if c.name == q then pathValues c p2 else pathValuesL cs q p2 := by
  rw [pathValuesL, findPathL_cons]
  by_cases h : c.name == q
  · rw [if_pos h, if_pos h]; rfl
  · rw [if_neg h, if_neg h]; rfl

theorem containsName_cons (c : FGNode) (cs : List FGNode) (s : String) :
    containsName (c :: cs) s = (c.name == s || containsName cs s) := rfl

theorem findPathL_of_not_contains {ch : List FGNode} {q : String}
    (h : containsName ch q = false) (p2 : List String) : findPathL ch q p2 = none := by
  induction ch with
  | nil => simp
  | cons c cs ih =>
    rw [containsName_cons, Bool.or_eq_false_iff] at h
    rw [findPathL_cons, if_neg (by simp [h.1]), ih h.2]

theorem pathValuesL_of_not_contains {ch : List FGNode} {q : String}
    (h : containsName ch q = false) (p2 : List String) : pathValuesL ch q p2 = none := by
  rw [pathValuesL, findPathL_of_not_contains h]; rfl

theorem findPathL_append (l1 l2 : List FGNode) (q : String) (p2 : List String) :
    findPathL (l1 ++ l2) q p2 =
      if containsName l1 q then findPathL l1 q p2 else findPathL l2 q p2 := by
  induction l1 with
  | nil => simp [containsName]
  | cons c cs ih =>
    by_cases h : c.name == q
    · rw [List.cons_append, findPathL_cons, if_pos h, findPathL_cons, if_pos h,
        if_pos (by rw [containsName_cons, h, Bool.true_or])]
    · rw [List.cons_append, findPathL_cons, if_neg h, ih, containsName_cons,
        show (FGNode.name c == q) = false from by simpa using h, Bool.false_or,
        findPathL_cons, if_neg h]

theorem pathValues_bump (c : FGNode) (q : String) (p2 : List String) :
    pathValues (bumpValue c) (q :: p2) = pathValues c (q :: p2) := by
  rw [pathValues_cons, pathValues_cons, bumpValue_children]

theorem pathValuesL_append (l1 l2 : List FGNode) (q : String) (p2 : List String) :
    pathValuesL (l1 ++ l2) q p2 =
      if containsName l1 q then pathValuesL l1 q p2 else pathValuesL l2 q p2 := by
  rw [pathValuesL, findPathL_append]
  by_cases h : containsName l1 q
  · rw [if_pos h, if_pos h]; rfl
  · rw [if_neg h, if_neg h]; rfl

@[simp] theorem isPrefixOf_nil_left (l : List String) :
    List.isPrefixOf [] l = true := by
  cases l <;> rfl

theorem isPrefixOf_cons_nil (a : String) (as : List String) :
    List.isPrefixOf (a :: as) [] = false := rfl

theorem isPrefixOf_cons_cons (a b : String) (as bs : List String) :
    List.isPrefixOf (a :: as) (b :: bs) = (a == b && List.isPrefixOf as bs) := rfl

theorem insert_path_into (T : Nat) (segs : List String)
    (hseg : ∀ cnt : Nat, ∀ node : FGNode, ∀ p : List String, p ≠ [] →
      pathValues (insertSegs T cnt node segs).1 p =
        if p.isPrefixOf segs then bumpInfo T (pathValues node p) else pathValues node p) :
    ∀ cnt : Nat, ∀ ch : List FGNode, ∀ s2 q : String, ∀ p2 : List String,
      pathValuesL (insertInto T cnt ch s2 segs).1 q p2 =
        if q = s2 ∧ containsName ch s2 = true then
          (if p2.isPrefixOf segs then bumpInfo T (pathValuesL ch s2 p2)
           else pathValuesL ch s2 p2)
        else pathValuesL ch q p2 := by
  intro cnt ch
  induction ch with
  | nil =>
    intro s2 q p2
    rw [insertInto_nil, if_neg (by simp [containsName])]
  | cons c cs ih =>
    intro s2 q p2
    by_cases hname : c.name == s2
    · rw [insertInto_cons_eq T cnt cs segs hname]
      have hc2name : (insertSegs T cnt (bumpValue c) segs).1.name = c.name := by
        rw [(insertSegs_root T cnt (bumpValue c) segs).2.2.1, bumpValue_name]
      have hcname : c.name = s2 := by simpa using hname
      have hcond : containsName (c :: cs) s2 = true := by
        rw [containsName_cons, hname, Bool.true_or]
      by_cases hq : q = s2
      · rw [if_pos ⟨hq, hcond⟩, pathValuesL_cons, pathValuesL_cons]
        have h1 : ((insertSegs T cnt (bumpValue c) segs).1.name == q) = true := by
          rw [hc2name, hcname, hq]; simp
        have h2 : (c.name == s2) = true := hname
        rw [if_pos h1, if_pos h2]
        cases p2 with
        | nil =>
          rw [pathValues_nil, pathValues_nil, if_pos (isPrefixOf_nil_left segs),
            (insertSegs_root T cnt (bumpValue c) segs).2.2.2.2,
            (insertSegs_root T cnt (bumpValue c) segs).2.2.2.1,
            bumpValue_value, bumpValue_total]
          rfl
        | cons q2 p3 =>
          rw [hseg cnt (bumpValue c) (q2 :: p3) (by simp), pathValues_bump]
      · rw [if_neg (fun hand => hq hand.1), pathValuesL_cons, pathValuesL_cons]
        have h1 : ((insertSegs T cnt (bumpValue c) segs).1.name == q) = false := by
          rw [hc2name, hcname]
          simpa using fun h => hq h.symm
        have h2 : (c.name == q) = false := by
          rw [hcname]
          simpa using fun h => hq h.symm
        rw [if_neg (by simp [h1]), if_neg (by simp [h2])]
    · rw [insertInto_cons_ne T cnt cs segs (by simpa using hname)]
      have hcname : ¬ c.name = s2 := by simpa using hname
      have hcont : containsName (c :: cs) s2 = containsName cs s2 := by
        rw [containsName_cons, show (FGNode.name c == s2) = false from by simpa using hname,
          Bool.false_or]
      rw [pathValuesL_cons]
      by_cases hcq : c.name == q
      · have hqs : ¬ q = s2 := by
          intro h1
          exact hcname (by rw [show c.name = q from by simpa using hcq, h1])
        rw [if_pos hcq, if_neg (fun hand => hqs hand.1), pathValuesL_cons, if_pos hcq]
      · rw [if_neg hcq, ih s2 q p2, hcont]
        by_cases hq : q = s2
        · by_cases hcs : containsName cs s2 = true
          · have hcond2 : q = s2 ∧ containsName cs s2 = true := ⟨hq, hcs⟩
            rw [if_pos hcond2, if_pos hcond2, pathValuesL_cons,
              if_neg (show ¬ (FGNode.name c == s2) = true from by simpa using hname)]
          · rw [if_neg (fun hand => hcs hand.2), if_neg (fun hand => hcs hand.2),
              pathValuesL_cons, if_neg hcq]
        · rw [if_neg (fun hand => hq hand.1), if_neg (fun hand => hq hand.1),
            pathValuesL_cons, if_neg hcq]

/-- Effect of inserting one metric's segments on the (value, total)
content at every nonempty path: paths that are a prefix of the inserted
segments are bumped (or created with value 1 and the snapshot total),
all other paths are untouched. -/
theorem insert_path (T : Nat) :
    ∀ segs : List String, ∀ cnt : Nat, ∀ node : FGNode, ∀ p : List String, p ≠ [] →
      pathValues (insertSegs T cnt node segs).1 p =
        if p.isPrefixOf segs then bumpInfo T (pathValues node p) else pathValues node p := by
  intro segt
  induction segt with
  | nil =>
    intro cnt node p hp
    simp only [insertSegs_nil]
    cases p with
    | nil => exact absurd rfl hp
    | cons q p2 =>
      rw [isPrefixOf_cons_nil, if_neg (by simp)]
  | cons s rest ih =>
    intro cnt node p hp
    cases node with
    | mk i cl nm t v ch ids =>
      cases p with
      | nil => exact absurd rfl hp
      | cons q p2 =>
        by_cases hc : containsName ch s
        · rw [insertSegs_cons_found T cnt i cl nm t v ids rest hc, pathValues_cons]
          simp only [FGNode.children_mk]
          rw [insert_path_into T rest ih cnt ch s q p2, pathValues_cons]
          simp only [FGNode.children_mk, isPrefixOf_cons_cons]
          by_cases hq : q = s
          · have hcond : q = s ∧ containsName ch s = true := ⟨hq, hc⟩
            rw [if_pos hcond, show (q == s) = true from by simpa using hq,
              Bool.true_and, hq]
          · rw [if_neg (fun hand => hq hand.1),
              show (q == s) = false from by simpa using hq, Bool.false_and,
              if_neg (by simp)]
        · rw [insertSegs_cons_fresh T cnt i cl nm t v ids rest (by simpa using hc),
            pathValues_cons]
          simp only [FGNode.children_mk]
          rw [pathValuesL_append, pathValues_cons]
          simp only [FGNode.children_mk, isPrefixOf_cons_cons]
          have hfname : (insertSegs T (cnt + 1) (FGNode.mk cnt cl s T 1 [] []) rest).1.name
              = s := by
            rw [(insertSegs_root T (cnt + 1) _ rest).2.2.1]; rfl
          by_cases hcq : containsName ch q
          · have hqs : ¬ q = s := fun h1 => by
              rw [h1] at hcq
              rw [hcq] at hc
              exact hc rfl
            rw [if_pos hcq, show (q == s) = false from by simpa using hqs,
              Bool.false_and, if_neg (by simp)]
          · rw [if_neg hcq, pathValuesL_cons]
            have hnone : pathValuesL ch q p2 = none :=
              pathValuesL_of_not_contains (by simpa using hcq) p2
            by_cases hq : q = s
            · rw [if_pos (show ((insertSegs T (cnt + 1)
                  (FGNode.mk cnt cl s T 1 [] []) rest).1.name == q) = true from by
                    rw [hfname, hq]; simp)]
              cases p2 with
              | nil =>
                rw [pathValues_nil, show (q == s) = true from by simpa using hq,
                  isPrefixOf_nil_left, Bool.true_and, if_pos rfl, hnone,
                  (insertSegs_root T (cnt + 1) _ rest).2.2.2.2,
                  (insertSegs_root T (cnt + 1) _ rest).2.2.2.1]
                rfl
              | cons q2 p3 =>
                rw [ih (cnt + 1) (FGNode.mk cnt cl s T 1 [] []) (q2 :: p3) (by simp),
                  pathValues_cons]
                simp only [FGNode.children_mk, pathValuesL_nil]
                rw [hnone, show (q == s) = true from by simpa using hq, Bool.true_and]
            · rw [if_neg (show ¬ ((insertSegs T (cnt + 1)
                  (FGNode.mk cnt cl s T 1 [] []) rest).1.name == q) = true from by
                    rw [hfname]
                    simpa using fun h => hq h.symm),
                pathValuesL_nil, show (q == s) = false from by simpa using hq,
                Bool.false_and, if_neg (by simp), hnone]

@[simp] theorem countPass_nil (p : List String) : countPass p [] = 0 := rfl

theorem countPass_cons (p : List String) (m : String) (ms : List String) :
    countPass p (m :: ms) =
      countPass p ms + if p.isPrefixOf (segsOf m) then 1 else 0 := by
  rw [countPass, List.countP_cons, countPass]

/-- Content of the built tree at every nonempty path, as a function of
the processed metrics only: the node for p carries the number of metrics
passing through p and the snapshot total, independent of input order. -/
theorem fold_path (T : Nat) :
    ∀ ms : List String, ∀ node : FGNode, ∀ cnt : Nat, ∀ p : List String, p ≠ [] →
      pathValues (constructTreeAux T node cnt ms).1 p =
        if 0 < countPass p ms then
          (match pathValues node p with
           | some (v, t) => some (v + countPass p ms, t)
           | none => some (countPass p ms, T))
        else pathValues node p := by
  intro ms
  induction ms with
  | nil =>
    intro node cnt p hp
    rw [constructTreeAux_nil, if_neg (by simp)]
  | cons m ms ih =>
    intro node cnt p hp
    rw [constructTreeAux_cons,
      ih (insertSegs T cnt node (segsOf m)).1 (insertSegs T cnt node (segsOf m)).2 p hp,
      insert_path T (segsOf m) cnt node p hp, countPass_cons]
    by_cases hpfx : List.isPrefixOf p (segsOf m)
    · rw [if_pos hpfx, if_pos hpfx]
      by_cases hcp : 0 < countPass p ms
      · rw [if_pos hcp, if_pos (show 0 < countPass p ms + 1 from by omega)]
        rcases hpv : pathValues node p with _ | ⟨v, t⟩
        · simp [bumpInfo]
          omega
        · simp [bumpInfo]
          omega
      · rw [if_neg hcp, if_pos (show 0 < countPass p ms + 1 from by omega)]
        have h0 : countPass p ms = 0 := by omega
        rw [h0]
        rcases hpv : pathValues node p with _ | ⟨v, t⟩
        · simp [bumpInfo]
        · simp [bumpInfo]
    · rw [if_neg hpfx, if_neg hpfx]
      simp only [Nat.add_zero]

/-- Characterization of the built tree at every nonempty path. -/
theorem buildTree_path (clusterName : String) (metrics : List String) :
    ∀ p : List String, p ≠ [] →
      pathValues (buildTree clusterName metrics) p =
        if 0 < countPass p metrics then
          some (countPass p metrics, metrics.length)
        else none := by
  intro p hp
  rw [buildTree, constructTree,
    fold_path metrics.length metrics (parseTreeRoot clusterName metrics)
      (rootElementId + 1) p hp]
  have hnone : pathValues (parseTreeRoot clusterName metrics) p = none := by
    cases p with
    | nil => exact absurd rfl hp
    | cons q p2 =>
      rw [parseTreeRoot, pathValues_cons]
      simp
  rw [hnone]

/-- C6 (counterexample): the claim, with only id assignment exempted,
requires equal trees for inputs with the same name set; but the builder
appends children in first-occurrence order, so the two orderings of the
same two names produce roots whose children carry the names in
different orders — the trees differ beyond id assignment. -/
theorem build_not_order_invariant :
    (buildTree "c" ["a.x", "b.x"]).children.map FGNode.name = ["a", "b"] ∧
    (buildTree "c" ["b.x", "a.x"]).children.map FGNode.name = ["b", "a"] ∧
    (["a", "b"] : List String) ≠ ["b", "a"] := by
  have h1 : segsOf "a.x" = ["a"] := by decide
  have h2 : segsOf "b.x" = ["b"] := by decide
  refine ⟨?_, ?_, by decide⟩
  · simp [buildTree, constructTree, parseTreeRoot, constructTreeAux, h1, h2,
      insertSegs, insertInto, containsName, bumpValue, rootElementId]
  · simp [buildTree, constructTree, parseTreeRoot, constructTreeAux, h1, h2,
      insertSegs, insertInto, containsName, bumpValue, rootElementId]

/-- C6 (amended): for permuted inputs the built trees agree up to child
order and id assignment: at the root and at every dotted path the same
node exists with the same value and total (the builder's content at a
path depends only on how many metrics pass through it and the metric
count, both permutation-invariant); only the order in which children
were first encountered, and the ids, differ. -/
theorem build_perm_path_invariant (clusterName : String) (m1 m2 : List String)
    (hperm : m1.Perm m2) :
    ∀ p : List String,
      pathValues (buildTree clusterName m1) p =
        pathValues (buildTree clusterName m2) p := by
  intro p
  cases p with
  | nil =>
    rw [pathValues_nil, pathValues_nil,
      (buildTree_root clusterName m1).2.2.2.2, (buildTree_root clusterName m1).2.2.2.1,
      (buildTree_root clusterName m2).2.2.2.2, (buildTree_root clusterName m2).2.2.2.1,
      hperm.length_eq]
  | cons q p2 =>
    rw [buildTree_path clusterName m1 (q :: p2) (by simp),
      buildTree_path clusterName m2 (q :: p2) (by simp)]
    have hc : countPass (q :: p2) m1 = countPass (q :: p2) m2 :=
      hperm.countP_eq (fun m => List.isPrefixOf (q :: p2) (segsOf m))
    rw [hc, hperm.length_eq]

/-- Witness for C6 at the two orderings of a two-name set. -/
theorem build_perm_path_invariant_witness :
    (["a.x", "b.x"] : List String).Perm ["b.x", "a.x"] ∧
    ∀ p : List String,
      pathValues (buildTree "c" ["a.x", "b.x"]) p =
        pathValues (buildTree "c" ["b.x", "a.x"]) p :=
  ⟨by decide, build_perm_path_invariant "c" ["a.x", "b.x"] ["b.x", "a.x"] (by decide)⟩

/-- C3: reconstructing from the keyed full (untrimmed) flattened
snapshot of the tree built from the input names, with minimum value f,
yields exactly the tree obtained by building from the names and then
trimming with floor f — the same nodes, values, totals and child
structure, with no value re-derived from surviving descendants (every
reconstructed field is copied from the stored row of the very node).
The fuel argument only feeds the embedding's recursion and any value at
least the tree height is enough. -/
theorem reconstruct_eq_build_then_trim (clusterName : String) (metrics : List String)
    (ts : Int) (f fuel : Nat)
    (hfuel : (buildTree clusterName metrics).height ≤ fuel) :
    reconstructTree (keyed (convertToClickhouse (buildTree clusterName metrics) ts))
        (rebuiltRoot (keyed (convertToClickhouse (buildTree clusterName metrics) ts)))
        f fuel
      = trimNodes (buildTree clusterName metrics) f :=
  reconstruct_keyed_eq_trim (buildTree clusterName metrics) ts f fuel
    (buildTree_nodup clusterName metrics) (buildTree_par clusterName metrics)
    (buildTree_root clusterName metrics).1 hfuel

/-- C4: flattening the built tree, keying the rows by id, and
reconstructing from the root with floor zero reproduces the original
untrimmed tree exactly (hence in particular its id-to-children
structure). -/
theorem flatten_reconstruct_roundtrip (clusterName : String) (metrics : List String)
    (ts : Int) (fuel : Nat)
    (hfuel : (buildTree clusterName metrics).height ≤ fuel) :
    reconstructTree (keyed (convertToClickhouse (buildTree clusterName metrics) ts))
        (rebuiltRoot (keyed (convertToClickhouse (buildTree clusterName metrics) ts)))
        0 fuel
      = buildTree clusterName metrics := by
  rw [reconstruct_keyed_eq_trim (buildTree clusterName metrics) ts 0 fuel
    (buildTree_nodup clusterName metrics) (buildTree_par clusterName metrics)
    (buildTree_root clusterName metrics).1 hfuel]
  exact trim_zero_eq_self (buildTree clusterName metrics) (buildTree_pos clusterName metrics)

/-- Witness for C3 at a concrete metric list, floor 1 and fuel 3. -/
theorem reconstruct_eq_build_then_trim_witness :
    (buildTree "c" ["a.b"]).height ≤ 3 ∧
    reconstructTree (keyed (convertToClickhouse (buildTree "c" ["a.b"]) 0))
        (rebuiltRoot (keyed (convertToClickhouse (buildTree "c" ["a.b"]) 0))) 1 3
      = trimNodes (buildTree "c" ["a.b"]) 1 := by
  have hb : buildTree "c" ["a.b"] =
      FGNode.mk 1 "c" "all" 1 1 [FGNode.mk 2 "c" "a" 1 1 [] []] [2] := by
    have h1 : segsOf "a.b" = ["a"] := by decide
    simp [buildTree, constructTree, parseTreeRoot, constructTreeAux, h1,
      insertSegs, insertInto, containsName, bumpValue, rootElementId]
  have hh : (buildTree "c" ["a.b"]).height ≤ 3 := by rw [hb]; decide
  exact ⟨hh, reconstruct_eq_build_then_trim "c" ["a.b"] 0 1 3 hh⟩

/-- Witness for C4 at a concrete metric list and fuel 3. -/
theorem flatten_reconstruct_roundtrip_witness :
    (buildTree "c" ["a.b", "a.c"]).height ≤ 3 ∧
    reconstructTree (keyed (convertToClickhouse (buildTree "c" ["a.b", "a.c"]) 5))
        (rebuiltRoot (keyed (convertToClickhouse (buildTree "c" ["a.b", "a.c"]) 5))) 0 3
      = buildTree "c" ["a.b", "a.c"] := by
  have hb : buildTree "c" ["a.b", "a.c"] =
      FGNode.mk 1 "c" "all" 2 2 [FGNode.mk 2 "c" "a" 2 2 [] []] [2] := by
    have h1 : segsOf "a.b" = ["a"] := by decide
    have h2 : segsOf "a.c" = ["a"] := by decide
    simp [buildTree, constructTree, parseTreeRoot, constructTreeAux, h1, h2,
      insertSegs, insertInto, containsName, bumpValue, rootElementId]
  have hh : (buildTree "c" ["a.b", "a.c"]).height ≤ 3 := by rw [hb]; decide
  exact ⟨hh, flatten_reconstruct_roundtrip "c" ["a.b", "a.c"] 5 3 hh⟩
